import Mathlib

/-!
# Field traversal and mutation over unstructured documents

A shallow embedding of `internal/template/unstructured.go`: the functions
`applyFieldFunc`, `applyPlainFieldFunc`, `applySliceFieldFunc` and
`processNestedSlice`, together with the accessors of
`k8s.io/apimachinery/pkg/apis/meta/v1/unstructured` they are built on.

Go mutates the caller's `map[string]any` in place and returns an `error`; here
every function returns an `Outcome` holding the contents of the caller's map
when control leaves the function and the way it left (returned with or without
an error, or panicked). Go maps are association lists: a read takes the first
binding of a key, a write replaces that binding in place or appends a new one.
Documents are trees: two positions never share one map, and a deep copy of a
value is the value.

`applyFieldFunc` and `processNestedSlice` call each other as in the source;
the recursion is well founded because the recursive call gets the segments
after the first marker. Both are total functions.
-/

/-- Values that a decoded `map[string]any` can hold: a string, a
`[]interface{}`, a nested `map[string]interface{}`, `nil`, and `scalar` for
the remaining JSON scalars (booleans and numbers), told apart by a tag. -/
inductive Value where
  | str (s : String)
  | slice (xs : List Value)
  | map (kvs : List (String × Value))
  | null
  | scalar (n : Int)

/-- Contents of a Go `map[string]any`. -/
abbrev Obj := List (String × Value)

/-- Shapes an accessor of package `unstructured` complains about. -/
inductive AccessorFault where
  | notMap
  | notString
  | notSlice
  | nonStringItem
  | cannotSet
  deriving DecidableEq, Repr

/-- Go `error` values, compared by identity. -/
inductive GoError where
  | custom (msg : String)
  | accessor (fault : AccessorFault) (fields : List String)
  | errorf (format : String) (cause : GoError)
  deriving DecidableEq, Repr

/-- How a call left its function. -/
inductive Exit where
  | returned (err : Option GoError)
  | panicked
  deriving DecidableEq, Repr

/-- State of the caller's map when the call is over, and how the call ended. -/
structure Outcome where
  obj : Obj
  exit : Exit

/-- Go `type fieldFunc func(string) (string, bool, error)`. -/
abbrev fieldFunc := String → String × Bool × Option GoError

/-- Go `m[k]` with the comma-ok form. -/
def mapGet (m : Obj) (k : String) : Option Value :=
  match m with
  | [] => none
  | (k', v) :: rest => if k' = k then some v else mapGet rest k

/-- Go `m[k] = v`. -/
def mapSet (m : Obj) (k : String) (v : Value) : Obj :=
  match m with
  | [] => [(k, v)]
  | (k', v') :: rest => if k' = k then (k, v) :: rest else (k', v') :: mapSet rest k v

/-- Go `slices.Index(s, v)`: index of the first occurrence, or -1. -/
def slicesIndex (s : List String) (v : String) : Int :=
  match s with
  | [] => -1
  | x :: rest => if x = v then 0 else
      let r := slicesIndex rest v
      if r = -1 then -1 else r + 1

namespace unstructured

/-- Modelled from the spec: the walk shared by the read primitives of the
Document Accessor, which is the loop of `NestedFieldNoCopy` in
`k8s.io/apimachinery` (a dependency, absent from this repository). As the
library does, it stops as not found on a `nil` value or a missing key, and
with an error on a value that is not a map while a field is still to be
looked up. `consumed` counts the fields already walked, for the error's
path. -/
def nestedFieldLoop (fields : List String) : Value → Nat → List String → Value × Bool × Option GoError
  | val, _, [] => (val, true, none)
  | val, consumed, field :: rest =>
    match val with
    | .null => (.null, false, none)
    | .map m =>
      match mapGet m field with
      | some v => nestedFieldLoop fields v (consumed + 1) rest
      | none => (.null, false, none)
    | _ => (.null, false, some (.accessor .notMap (fields.take (consumed + 1))))

/-- Modelled from the spec: `unstructured.NestedFieldNoCopy` of the library,
the walk from the root map; with no field it returns the root itself. -/
def NestedFieldNoCopy (obj : Obj) (fields : List String) : Value × Bool × Option GoError :=
  nestedFieldLoop fields (.map obj) 0 fields

/-- Modelled from the spec: the read-a-string primitive,
`unstructured.NestedString` of the library: the found flag is false when the
path is absent, and an error is returned when the value is present and is not
a string. -/
def NestedString (obj : Obj) (fields : List String) : String × Bool × Option GoError :=
  match NestedFieldNoCopy obj fields with
  | (val, found, err) =>
    if !found || err.isSome then ("", found, err)
    else
      match val with
      | .str s => (s, true, none)
      | _ => ("", false, some (.accessor .notString fields))

/-- Modelled from the spec: the conversion loop of the library's
`NestedStringSlice`; `none` when an element is not a string. -/
def toStringSlice : List Value → Option (List String)
  | [] => some []
  | .str s :: rest =>
    match toStringSlice rest with
    | some ss => some (s :: ss)
    | none => none
  | _ :: _ => none

/-- Modelled from the spec: the read-a-list-of-strings primitive,
`unstructured.NestedStringSlice` of the library: an error when the value is
present and is not a list, or holds an element that is not a string. -/
def NestedStringSlice (obj : Obj) (fields : List String) : List String × Bool × Option GoError :=
  match NestedFieldNoCopy obj fields with
  | (val, found, err) =>
    if !found || err.isSome then ([], found, err)
    else
      match val with
      | .slice m =>
        match toStringSlice m with
        | some strSlice => (strSlice, true, none)
        | none => ([], false, some (.accessor .nonStringItem fields))
      | _ => ([], false, some (.accessor .notSlice fields))

/-- Modelled from the spec: the read-a-list-of-sub-documents primitive,
`unstructured.NestedSlice` of the library: an error when the value is present
and is not a list. The library returns a deep copy, which for values is the
value itself: what is done to the copy reaches the caller's map only when it
is written back. -/
def NestedSlice (obj : Obj) (fields : List String) : List Value × Bool × Option GoError :=
  match NestedFieldNoCopy obj fields with
  | (val, found, err) =>
    if !found || err.isSome then ([], found, err)
    else
      match val with
      | .slice xs => (xs, true, none)
      | _ => ([], false, some (.accessor .notSlice fields))

/-- Modelled from the spec: the walk shared by the write primitives, which is
the loop of the library's `setNestedFieldNoCopy`: it walks
`fields[:len(fields)-1]` through maps (creating a map for a missing key,
failing on a value that is not a map) and assigns the last field. The map is
returned with the error, unchanged when there is one. -/
def setNestedLoop (fields : List String) (value : Value) : Obj → Nat → List String → Obj × Option GoError
  | m, _, [] => (m, none)
  | m, _, [last] => (mapSet m last value, none)
  | m, consumed, field :: rest =>
    match mapGet m field with
    | some (.map valMap) =>
      match setNestedLoop fields value valMap (consumed + 1) rest with
      | (valMap', none) => (mapSet m field (.map valMap'), none)
      | (_, some e) => (m, some e)
    | some _ => (m, some (.accessor .cannotSet (fields.take (consumed + 1))))
    | none =>
      match setNestedLoop fields value [] (consumed + 1) rest with
      | (newVal, none) => (mapSet m field (.map newVal), none)
      | (_, some e) => (m, some e)

/-- Modelled from the spec: the library's `setNestedFieldNoCopy`; with no
field at all its expression `fields[:len(fields)-1]` panics. -/
def setNestedFieldNoCopy (obj : Obj) (value : Value) (fields : List String) : Outcome :=
  match fields with
  | [] => ⟨obj, .panicked⟩
  | _ :: _ =>
    match setNestedLoop fields value obj 0 fields with
    | (obj', err) => ⟨obj', .returned err⟩

/-- Modelled from the spec: the write-a-string primitive,
`unstructured.SetNestedField` of the library (the deep copy of the value is
the value). -/
def SetNestedField (obj : Obj) (value : Value) (fields : List String) : Outcome :=
  setNestedFieldNoCopy obj value fields

/-- Modelled from the spec: the write-a-list-of-strings primitive,
`unstructured.SetNestedStringSlice` of the library. -/
def SetNestedStringSlice (obj : Obj) (value : List String) (fields : List String) : Outcome :=
  setNestedFieldNoCopy obj (.slice (value.map Value.str)) fields

/-- Modelled from the spec: the write-a-list-of-sub-documents primitive,
`unstructured.SetNestedSlice` of the library. -/
def SetNestedSlice (obj : Obj) (value : List Value) (fields : List String) : Outcome :=
  SetNestedField obj (.slice value) fields

end unstructured

open unstructured

/-- Source `applyPlainFieldFunc`, lines 37-57. -/
def applyPlainFieldFunc (obj : Obj) (path : List String) (ff : fieldFunc) : Outcome :=
  match NestedString obj path with
  | (existingValue, ok, err) =>
    match err with
    | some err => ⟨obj, .returned (some (.errorf "error reading object: " err))⟩
    | none =>
      if !ok then ⟨obj, .returned none⟩
      else
        match ff existingValue with
        | (_, _, some err) => ⟨obj, .returned (some err)⟩
        | (value, set, none) =>
          if set then
            match SetNestedField obj (.str value) path with
            | ⟨obj', .returned (some err)⟩ =>
              ⟨obj', .returned (some (.errorf "error updating object: " err))⟩
            | ⟨obj', .returned none⟩ => ⟨obj', .returned none⟩
            | ⟨obj', .panicked⟩ => ⟨obj', .panicked⟩
          else ⟨obj, .returned none⟩

/-- The `for` loop of `applySliceFieldFunc`, lines 70-81: the filled part of
`valueArr` and `setAny`, or the first error of `ff`. -/
def sliceLoop (ff : fieldFunc) : List String → List String → Bool → Except GoError (List String × Bool)
  | [], valueArr, setAny => .ok (valueArr, setAny)
  | existingValue :: rest, valueArr, setAny =>
    match ff existingValue with
    | (_, _, some err) => .error err
    | (value, set, none) =>
      sliceLoop ff rest (valueArr ++ [if set then value else existingValue]) (setAny || set)

/-- Source `applySliceFieldFunc`, lines 59-89. -/
def applySliceFieldFunc (obj : Obj) (path : List String) (ff : fieldFunc) : Outcome :=
  match NestedStringSlice obj path with
  | (exValArr, ok, err) =>
    match err with
    | some err => ⟨obj, .returned (some (.errorf "error reading object: " err))⟩
    | none =>
      if !ok then ⟨obj, .returned none⟩
      else
        match sliceLoop ff exValArr [] false with
        | .error err => ⟨obj, .returned (some err)⟩
        | .ok (valueArr, setAny) =>
          if setAny then
            match SetNestedStringSlice obj valueArr path with
            | ⟨obj', .returned (some err)⟩ =>
              ⟨obj', .returned (some (.errorf "error updating object: " err))⟩
            | ⟨obj', .returned none⟩ => ⟨obj', .returned none⟩
            | ⟨obj', .panicked⟩ => ⟨obj', .panicked⟩
          else ⟨obj, .returned none⟩

/-- The `for` loop of `processNestedSlice`, lines 100-106, over the copy that
`NestedSlice` returned: `recurse` is the call of `applyFieldFunc` on one
element, `updated` the filled part of `updatedNestedSlice`. The result is the
filled slice, or the exit that ends the function early. -/
def nestedLoop (recurse : Obj → Outcome) : List Value → List Value → Except Exit (List Value)
  | [], updated => .ok updated
  | nestedObj :: rest, updated =>
    match nestedObj with
    | .map m =>
      match recurse m with
      | ⟨m', .returned none⟩ => nestedLoop recurse rest (updated ++ [.map m'])
      | ⟨_, .returned (some err)⟩ => .error (.returned (some err))
      | ⟨_, .panicked⟩ => .error .panicked
    | _ => .error .panicked

mutual

/-- Source `applyFieldFunc`, lines 26-35. -/
def applyFieldFunc (obj : Obj) (path : List String) (ff : fieldFunc) : Outcome :=
  if slicesIndex path "[]" ≠ -1 then
    if slicesIndex path "[]" = (path.length : Int) - 1 then
      applySliceFieldFunc obj (path.take (slicesIndex path "[]").toNat) ff
    else processNestedSlice obj path ff
  else applyPlainFieldFunc obj path ff
termination_by 2 * path.length + 1

/-- Source `processNestedSlice`, lines 91-114. The first branch is the panic of
`path[:ind]` when the path has no marker (`ind` is -1), which no call from
`applyFieldFunc` reaches. -/
def processNestedSlice (obj : Obj) (path : List String) (ff : fieldFunc) : Outcome :=
  if _h : slicesIndex path "[]" < 0 then ⟨obj, .panicked⟩
  else
    match NestedSlice obj (path.take (slicesIndex path "[]").toNat) with
    | (nestedSlice, found, err) =>
      if !found || err.isSome then ⟨obj, .returned none⟩
      else
        match nestedLoop (fun nestedObj =>
            applyFieldFunc nestedObj (path.drop ((slicesIndex path "[]").toNat + 1)) ff)
            nestedSlice [] with
        | .error exit => ⟨obj, exit⟩
        | .ok updatedNestedSlice =>
          SetNestedSlice obj updatedNestedSlice (path.take (slicesIndex path "[]").toNat)
termination_by 2 * path.length
decreasing_by
  all_goals simp_wf
  have hpos : 0 < path.length := by
    cases path with
    | nil => simp [slicesIndex] at *
    | cons x xs => simp
  omega

end

/-- Source `applyFieldTemplate`, lines 19-24; `executeTemplate` is defined
outside this file and is taken as a parameter. -/
def applyFieldTemplate (executeTemplate : String → List (String × String) → String × Option GoError)
    (obj : Obj) (path : List String) (values : List (String × String)) : Outcome :=
  applyFieldFunc obj path (fun valueTemplate =>
    match executeTemplate valueTemplate values with
    | (value, err) => (value, true, err))

/-! ## Specification vocabulary -/

/-- `ReplacedAt obj path v obj'`: the document `obj'` is `obj` with the value
at `path` replaced by `v`. Every map on the way keeps its bindings, in order;
only the binding that `path` walks through (the first one of its key) changes,
and below the last key only the value. -/
inductive ReplacedAt : Obj → List String → Value → Obj → Prop where
  | leaf (pre post : Obj) (k : String) (old v : Value) :
      mapGet pre k = none →
      ReplacedAt (pre ++ (k, old) :: post) [k] v (pre ++ (k, v) :: post)
  | step (pre post : Obj) (k : String) (m m' : Obj) (rest : List String) (v : Value) :
      mapGet pre k = none → ReplacedAt m rest v m' →
      ReplacedAt (pre ++ (k, .map m) :: post) (k :: rest) v (pre ++ (k, .map m') :: post)

/-- New value of one element of a list of strings: the value `ff` returns when
it asks to apply it, the old value otherwise. -/
def newElem (ff : fieldFunc) (s : String) : String :=
  if (ff s).2.1 then (ff s).1 else s

/-- Body of `processNestedSlice` once the path is split at its first marker
into `p ++ "[]" :: s`. -/
def nestedBody (obj : Obj) (p s : List String) (ff : fieldFunc) : Outcome :=
  match NestedSlice obj p with
  | (nestedSlice, found, err) =>
    if !found || err.isSome then ⟨obj, .returned none⟩
    else
      match nestedLoop (fun nestedObj => applyFieldFunc nestedObj s ff) nestedSlice [] with
      | .error exit => ⟨obj, exit⟩
      | .ok updatedNestedSlice => SetNestedSlice obj updatedNestedSlice p


/-- `ElemUpdated ff b e e'`: the sub-document `e'` is what the field `b` of the
sub-document `e` asks for: when `e` holds a string at `b` and `ff` applies a
new value, `e'` is `e` with that value at `b`; in every other case (no key `b`,
or `ff` does not apply) `e'` is `e`. -/
def ElemUpdated (ff : fieldFunc) (b : String) (e e' : Obj) : Prop :=
  match mapGet e b with
  | some (.str s) => if (ff s).2.1 then ReplacedAt e [b] (.str (ff s).1) e' else e' = e
  | _ => e' = e

mutual

/-- Two values have the same shape: the same kind at every position, maps with
the same keys in the same order, lists of the same length, equal scalars that
are not strings; only strings may differ. -/
def sameShape : Value → Value → Bool
  | .str _, .str _ => true
  | .slice xs, .slice ys => sameShapeList xs ys
  | .map a, .map b => sameShapeKvs a b
  | .null, .null => true
  | .scalar n, .scalar m => decide (n = m)
  | _, _ => false

/-- Lists of the same length whose elements have pairwise the same shape. -/
def sameShapeList : List Value → List Value → Bool
  | [], [] => true
  | x :: xs, y :: ys => sameShape x y && sameShapeList xs ys
  | _, _ => false

/-- Maps with the same keys in the same order whose values have pairwise the
same shape. -/
def sameShapeKvs : List (String × Value) → List (String × Value) → Bool
  | [], [] => true
  | (k, x) :: xs, (k', y) :: ys => decide (k = k') && sameShape x y && sameShapeKvs xs ys
  | _, _ => false

end

/-- Document of the container scenario:
`{"spec":{"containers":[{"image":"repo/app:\x7b\x7b.tag\x7d\x7d"},{"image":"static:latest"}]}}`. -/
def scenarioDoc : Obj :=
  [("spec", .map [("containers", .slice [.map [("image", .str "repo/app:\x7b\x7b.tag\x7d\x7d")],
    .map [("image", .str "static:latest")]])])]

/-- The two sub-documents of the container scenario. -/
def scenarioElems : List Obj :=
  [[("image", .str "repo/app:\x7b\x7b.tag\x7d\x7d")], [("image", .str "static:latest")]]

/-- Mutation of the container scenario: the first image is rendered to
`repo/app:v2`, every other string is returned as it is, always applied. -/
def scenarioFunc : fieldFunc := fun s =>
  if s = "repo/app:\x7b\x7b.tag\x7d\x7d" then ("repo/app:v2", true, none) else (s, true, none)

/-- Document with a list of three sub-documents of which only the second has
the field `b`. -/
def threeDoc : Obj :=
  [("a", .slice [.map [("x", .str "1")], .map [("b", .str "old")], .map []])]

/-- The three sub-documents of `threeDoc`. -/
def threeElems : List Obj := [[("x", .str "1")], [("b", .str "old")], []]

/-- Document `{"a": {"b": ["x", "keep", "y"]}}`. -/
def stringsDoc : Obj := [("a", .map [("b", .slice [.str "x", .str "keep", .str "y"])])]

/-- Mutation that appends `!` to every string but `"keep"`, which it leaves
alone. -/
def bangUnlessKeep : fieldFunc := fun s => (s ++ "!", decide (s ≠ "keep"), none)

/-- Document `{"a": [{"b": "x"}, {"b": "bad"}]}`. -/
def rollbackDoc : Obj := [("a", .slice [.map [("b", .str "x")], .map [("b", .str "bad")]])]

/-- Mutation that fails on `"bad"` and applies a new value on every other
string. -/
def rollbackFunc : fieldFunc := fun s =>
  if s = "bad" then ("", false, some (.custom "boom")) else (s ++ "!", true, none)

/-- The function that `applyFieldTemplate` passes to `applyFieldFunc`: render
the value, always apply, hand on the render error. -/
def templateFunc (executeTemplate : String → List (String × String) → String × Option GoError)
    (values : List (String × String)) : fieldFunc :=
  fun valueTemplate =>
    match executeTemplate valueTemplate values with
    | (value, err) => (value, true, err)

/-- `FailsWith ff obj path e`: the traversal of `path` in `obj` reaches a
located string on which `ff` returns the error `e`, no earlier step having
failed. At a scalar path the located string is the one `NestedString` finds;
at a list of strings it is the first element on which `ff` fails; in a nested
descent it is reached inside the first sub-document whose call does not
succeed, whatever follows that sub-document in the list. -/
inductive FailsWith (ff : fieldFunc) : Obj → List String → GoError → Prop where
  | scalar (obj : Obj) (path : List String) (V : String) (e : GoError) :
      "[]" ∉ path → NestedString obj path = (V, true, none) → (ff V).2.2 = some e →
      FailsWith ff obj path e
  | strings (obj : Obj) (p a : List String) (s : String) (b : List String) (e : GoError) :
      "[]" ∉ p → NestedStringSlice obj p = (a ++ s :: b, true, none) →
      (∀ x ∈ a, (ff x).2.2 = none) → (ff s).2.2 = some e →
      FailsWith ff obj (p ++ ["[]"]) e
  | nested (obj : Obj) (p suffix : List String) (a : List Obj) (el : Obj) (b : List Value)
      (e : GoError) :
      "[]" ∉ p → suffix ≠ [] →
      NestedSlice obj p = (a.map Value.map ++ .map el :: b, true, none) →
      (∀ x ∈ a, (applyFieldFunc x suffix ff).exit = .returned none) →
      FailsWith ff el suffix e →
      FailsWith ff obj (p ++ "[]" :: suffix) e

/-- The loop of `processNestedSlice` when the recursive call has a depth
budget: `none` when a call runs out of it. -/
def nestedLoopDepth (recurse : Obj → Option Outcome) :
    List Value → List Value → Option (Except Exit (List Value))
  | [], updated => some (.ok updated)
  | nestedObj :: rest, updated =>
    match nestedObj with
    | .map m =>
      match recurse m with
      | none => none
      | some ⟨m', .returned none⟩ => nestedLoopDepth recurse rest (updated ++ [.map m'])
      | some ⟨_, .returned (some err)⟩ => some (.error (.returned (some err)))
      | some ⟨_, .panicked⟩ => some (.error .panicked)
    | _ => some (.error .panicked)

/-- `applyFieldFunc` with a budget on the depth of its recursion: each call of
`applyFieldFunc` (the first one included) uses one unit, and the calls that
`processNestedSlice` makes on the elements get what is left. The result is
`none` when a call is made with no budget left. -/
def applyFieldFuncDepth : Nat → Obj → List String → fieldFunc → Option Outcome
  | 0, _, _, _ => none
  | depth + 1, obj, path, ff =>
    if slicesIndex path "[]" ≠ -1 then
      if slicesIndex path "[]" = (path.length : Int) - 1 then
        some (applySliceFieldFunc obj (path.take (slicesIndex path "[]").toNat) ff)
      else
        match NestedSlice obj (path.take (slicesIndex path "[]").toNat) with
        | (nestedSlice, found, err) =>
          if !found || err.isSome then some ⟨obj, .returned none⟩
          else
            match nestedLoopDepth (fun nestedObj =>
                applyFieldFuncDepth depth nestedObj
                  (path.drop ((slicesIndex path "[]").toNat + 1)) ff)
                nestedSlice [] with
            | none => none
            | some (.error exit) => some ⟨obj, exit⟩
            | some (.ok updatedNestedSlice) =>
              some (SetNestedSlice obj updatedNestedSlice
                (path.take (slicesIndex path "[]").toNat))
    else some (applyPlainFieldFunc obj path ff)

/-- Document `{"a": {"b": "t"}}` whose only string is a template. -/
def templateDoc : Obj := [("a", .map [("b", .str "t")])]

/-- A renderer that fails on every template. -/
def failingRender : String → List (String × String) → String × Option GoError :=
  fun _ _ => ("", some (.custom "render"))

/-! # Theorems -/

/-! ## Maps -/

theorem mapGet_split (m : Obj) (k : String) (v : Value) (h : mapGet m k = some v) :
    ∃ pre post, m = pre ++ (k, v) :: post ∧ mapGet pre k = none := by
  induction m with
  | nil => simp [mapGet] at h
  | cons kv rest ih =>
    obtain ⟨k', v'⟩ := kv
    by_cases hk : k' = k
    · subst hk
      simp [mapGet] at h
      subst h
      exact ⟨[], rest, rfl, rfl⟩
    · simp [mapGet, hk] at h
      obtain ⟨pre, post, h1, h2⟩ := ih h
      refine ⟨(k', v') :: pre, post, by simp [h1], by simp [mapGet, hk, h2]⟩

theorem mapGet_append (pre post : Obj) (k : String) (v : Value) (h : mapGet pre k = none) :
    mapGet (pre ++ (k, v) :: post) k = some v := by
  induction pre with
  | nil => simp [mapGet]
  | cons kv rest ih =>
    obtain ⟨k', v'⟩ := kv
    by_cases hk : k' = k
    · simp [mapGet, hk] at h
    · simp [mapGet, hk] at h ⊢
      exact ih h

theorem mapSet_append (pre post : Obj) (k : String) (old v : Value) (h : mapGet pre k = none) :
    mapSet (pre ++ (k, old) :: post) k v = pre ++ (k, v) :: post := by
  induction pre with
  | nil => simp [mapSet]
  | cons kv rest ih =>
    obtain ⟨k', v'⟩ := kv
    by_cases hk : k' = k
    · simp [mapGet, hk] at h
    · simp [mapGet, hk] at h
      simp [mapSet, hk, ih h]

theorem mapSet_same (m : Obj) (k : String) (v : Value) (h : mapGet m k = some v) :
    mapSet m k v = m := by
  obtain ⟨pre, post, h1, h2⟩ := mapGet_split m k v h
  rw [h1, mapSet_append pre post k v v h2]

/-! ## Marker search -/

theorem slicesIndex_not_mem (p : List String) (v : String) (h : v ∉ p) :
    slicesIndex p v = -1 := by
  induction p with
  | nil => rfl
  | cons x xs ih =>
    simp only [List.mem_cons, not_or] at h
    have hx : ¬ x = v := fun e => h.1 e.symm
    simp [slicesIndex, hx, ih h.2]

theorem slicesIndex_append (p r : List String) (v : String) (h : v ∉ p) :
    slicesIndex (p ++ v :: r) v = (p.length : Int) := by
  induction p with
  | nil => simp [slicesIndex]
  | cons x xs ih =>
    simp only [List.mem_cons, not_or] at h
    have hx : ¬ x = v := fun e => h.1 e.symm
    have hne : ¬ ((xs.length : Int) = -1) := by omega
    have e : slicesIndex (x :: (xs ++ v :: r)) v =
        if slicesIndex (xs ++ v :: r) v = -1 then -1 else slicesIndex (xs ++ v :: r) v + 1 := by
      simp [slicesIndex, hx]
    rw [List.cons_append, e, ih h.2, if_neg hne]
    simp

/-- Every path is free of the marker, or splits at its first marker. -/
theorem path_cases (path : List String) (v : String) :
    v ∉ path ∨ ∃ p r, path = p ++ v :: r ∧ v ∉ p := by
  induction path with
  | nil => left; simp
  | cons x xs ih =>
    by_cases hx : x = v
    · right; exact ⟨[], xs, by simp [hx], by simp⟩
    · rcases ih with h | ⟨p, r, h1, h2⟩
      · left
        simp only [List.mem_cons, not_or]
        exact ⟨fun e => hx e.symm, h⟩
      · right
        refine ⟨x :: p, r, by simp [h1], ?_⟩
        simp only [List.mem_cons, not_or]
        exact ⟨fun e => hx e.symm, h2⟩

/-! ## Dispatch of `applyFieldFunc` -/

theorem applyFieldFunc_plain (obj : Obj) (path : List String) (ff : fieldFunc)
    (h : "[]" ∉ path) : applyFieldFunc obj path ff = applyPlainFieldFunc obj path ff := by
  rw [applyFieldFunc]
  simp [slicesIndex_not_mem path "[]" h]

theorem applyFieldFunc_slice (obj : Obj) (p : List String) (ff : fieldFunc)
    (h : "[]" ∉ p) : applyFieldFunc obj (p ++ ["[]"]) ff = applySliceFieldFunc obj p ff := by
  rw [applyFieldFunc]
  have hi := slicesIndex_append p [] "[]" h
  simp [hi]

theorem applyFieldFunc_nested (obj : Obj) (p s : List String) (ff : fieldFunc)
    (h : "[]" ∉ p) (hs : s ≠ []) :
    applyFieldFunc obj (p ++ "[]" :: s) ff = nestedBody obj p s ff := by
  rw [applyFieldFunc]
  have hi := slicesIndex_append p s "[]" h
  have hlen : 0 < s.length := List.length_pos.mpr hs
  have hne : ¬ ((p.length : Int) = ((p ++ "[]" :: s).length : Int) - 1) := by
    simp only [List.length_append, List.length_cons]
    push_cast
    omega
  rw [hi]
  have h1 : ((p.length : Int) ≠ -1) := by omega
  simp only [h1, hne, ne_eq, not_false_eq_true, if_true, if_false]
  rw [processNestedSlice]
  simp [hi, nestedBody]

/-! ## Reads and writes of the accessors -/

theorem nestedFieldLoop_found_map (f : List String) (val : Value) (c : Nat) (k : String)
    (rest : List String) (v : Value) (e : Option GoError)
    (h : nestedFieldLoop f val c (k :: rest) = (v, true, e)) :
    ∃ m v1, val = .map m ∧ mapGet m k = some v1 ∧
      nestedFieldLoop f v1 (c + 1) rest = (v, true, e) := by
  cases val with
  | map m =>
    cases hg : mapGet m k with
    | none => simp [nestedFieldLoop, hg] at h
    | some v1 =>
      simp only [nestedFieldLoop, hg] at h
      exact ⟨m, v1, rfl, hg, h⟩
  | _ => simp [nestedFieldLoop] at h

theorem nestedFieldLoop_found_err (f : List String) :
    ∀ (p : List String) (val : Value) (c : Nat) (v : Value) (e : Option GoError),
      nestedFieldLoop f val c p = (v, true, e) → e = none := by
  intro p
  induction p with
  | nil =>
    intro val c v e h
    simp [nestedFieldLoop] at h
    exact h.2.symm
  | cons k rest ih =>
    intro val c v e h
    obtain ⟨m, v1, -, -, h2⟩ := nestedFieldLoop_found_map f val c k rest v e h
    exact ih v1 (c + 1) v e h2

/-- A successful read does not depend on the bookkeeping of the error path. -/
theorem nestedFieldLoop_indep (f f' : List String) :
    ∀ (p : List String) (val : Value) (c c' : Nat) (v : Value) (e : Option GoError),
      nestedFieldLoop f val c p = (v, true, e) →
      nestedFieldLoop f' val c' p = (v, true, none) := by
  intro p
  induction p with
  | nil =>
    intro val c c' v e h
    simp [nestedFieldLoop] at h ⊢
    exact h.1
  | cons k rest ih =>
    intro val c c' v e h
    obtain ⟨m, v1, hm, hg, h2⟩ := nestedFieldLoop_found_map f val c k rest v e h
    subst hm
    simp only [nestedFieldLoop, hg]
    exact ih v1 (c + 1) (c' + 1) v e h2

/-- Writing at a path that was read successfully succeeds and replaces exactly
the value at that path. -/
theorem setNestedLoop_found (value : Value) :
    ∀ (p : List String) (m : Obj) (f f' : List String) (c c' : Nat) (v : Value)
      (e : Option GoError), p ≠ [] →
      nestedFieldLoop f (.map m) c p = (v, true, e) →
      ∃ m', setNestedLoop f' value m c' p = (m', none) ∧ ReplacedAt m p value m' := by
  intro p
  induction p with
  | nil => intro m f f' c c' v e hp; exact absurd rfl hp
  | cons k rest ih =>
    intro m f f' c c' v e _ h
    obtain ⟨m0, v1, hm, hg, h2⟩ := nestedFieldLoop_found_map f (.map m) c k rest v e h
    cases hm
    obtain ⟨pre, post, hsplit, hpre⟩ := mapGet_split m k v1 hg
    cases rest with
    | nil =>
      refine ⟨mapSet m k value, by simp [setNestedLoop], ?_⟩
      rw [hsplit, mapSet_append pre post k v1 value hpre]
      exact ReplacedAt.leaf pre post k v1 value hpre
    | cons k2 r2 =>
      obtain ⟨m1, v2, hm1, -, -⟩ := nestedFieldLoop_found_map f v1 (c + 1) k2 r2 v e h2
      subst hm1
      obtain ⟨m1', hset, hrep⟩ :=
        ih m1 f f' (c + 1) (c' + 1) v e (by simp) h2
      refine ⟨mapSet m k (.map m1'), by simp [setNestedLoop, hg, hset], ?_⟩
      rw [hsplit, mapSet_append pre post k (.map m1) (.map m1') hpre]
      exact ReplacedAt.step pre post k m1 m1' (k2 :: r2) value hpre hrep

/-- Reading back the path of a replacement gives the new value. -/
theorem ReplacedAt.read_new {m m' : Obj} {p : List String} {v : Value}
    (h : ReplacedAt m p v m') (f : List String) :
    ∀ c, nestedFieldLoop f (.map m') c p = (v, true, none) := by
  induction h with
  | leaf pre post k old v hpre =>
    intro c
    simp [nestedFieldLoop, mapGet_append pre post k v hpre]
  | step pre post k m m' rest v hpre _ ih =>
    intro c
    simp only [nestedFieldLoop, mapGet_append pre post k (.map m') hpre]
    exact ih (c + 1)

/-- Replacing a value by itself leaves the document as it was. -/
theorem ReplacedAt.same {m m' : Obj} {p : List String} {v : Value}
    (h : ReplacedAt m p v m') (f : List String) :
    ∀ c e, nestedFieldLoop f (.map m) c p = (v, true, e) → m' = m := by
  induction h with
  | leaf pre post k old v hpre =>
    intro c e hr
    simp [nestedFieldLoop, mapGet_append pre post k old hpre] at hr
    rw [hr.1]
  | step pre post k m m' rest v hpre _ ih =>
    intro c e hr
    simp only [nestedFieldLoop, mapGet_append pre post k (.map m) hpre] at hr
    rw [ih (c + 1) e hr]

/-- A replacement always happens below at least one key. -/
theorem ReplacedAt.path_ne_nil {m m' : Obj} {p : List String} {v : Value}
    (h : ReplacedAt m p v m') : p ≠ [] := by
  cases h <;> simp

theorem NestedFieldNoCopy_root (obj : Obj) :
    NestedFieldNoCopy obj [] = (.map obj, true, none) := by
  simp [NestedFieldNoCopy, nestedFieldLoop]

/-- `NestedString` finds a string exactly when the walk ends on that string. -/
theorem NestedString_found (obj : Obj) (p : List String) (s : String) (e : Option GoError)
    (h : NestedString obj p = (s, true, e)) :
    NestedFieldNoCopy obj p = (.str s, true, none) ∧ p ≠ [] := by
  unfold NestedString at h
  rcases hr : NestedFieldNoCopy obj p with ⟨val, found, err⟩
  rw [hr] at h
  cases found with
  | false => simp at h
  | true =>
    have he : err = none := nestedFieldLoop_found_err p p (.map obj) 0 val err hr
    subst he
    cases val <;> simp at h
    case str s' =>
      refine ⟨by rw [h.1], ?_⟩
      intro hp
      subst hp
      rw [NestedFieldNoCopy_root] at hr
      cases hr

theorem toStringSlice_some :
    ∀ (xs : List Value) (ss : List String), toStringSlice xs = some ss → xs = ss.map Value.str := by
  intro xs
  induction xs with
  | nil =>
    intro ss h
    simp [toStringSlice] at h
    simp [← h]
  | cons x rest ih =>
    intro ss h
    cases x with
    | str s =>
      cases hr : toStringSlice rest with
      | none => simp [toStringSlice, hr] at h
      | some ss' =>
        simp [toStringSlice, hr] at h
        subst h
        simp [ih ss' hr]
    | _ => simp [toStringSlice] at h

theorem toStringSlice_map (ss : List String) : toStringSlice (ss.map Value.str) = some ss := by
  induction ss with
  | nil => rfl
  | cons s rest ih => simp [toStringSlice, ih]

/-- `NestedStringSlice` finds a list exactly when the walk ends on a slice of
strings. -/
theorem NestedStringSlice_found (obj : Obj) (p : List String) (ss : List String)
    (e : Option GoError) (h : NestedStringSlice obj p = (ss, true, e)) :
    NestedFieldNoCopy obj p = (.slice (ss.map Value.str), true, none) ∧ p ≠ [] := by
  unfold NestedStringSlice at h
  rcases hr : NestedFieldNoCopy obj p with ⟨val, found, err⟩
  rw [hr] at h
  cases found with
  | false => simp at h
  | true =>
    have he : err = none := nestedFieldLoop_found_err p p (.map obj) 0 val err hr
    subst he
    cases val <;> simp at h
    case slice xs =>
      cases hts : toStringSlice xs with
      | none => simp [hts] at h
      | some ss' =>
        simp [hts] at h
        refine ⟨by rw [toStringSlice_some xs ss' hts, h.1], ?_⟩
        intro hp
        subst hp
        rw [NestedFieldNoCopy_root] at hr
        cases hr

/-- `NestedSlice` finds a list exactly when the walk ends on a slice. -/
theorem NestedSlice_found (obj : Obj) (p : List String) (xs : List Value)
    (e : Option GoError) (h : NestedSlice obj p = (xs, true, e)) :
    NestedFieldNoCopy obj p = (.slice xs, true, none) ∧ p ≠ [] := by
  unfold NestedSlice at h
  rcases hr : NestedFieldNoCopy obj p with ⟨val, found, err⟩
  rw [hr] at h
  cases found with
  | false => simp at h
  | true =>
    have he : err = none := nestedFieldLoop_found_err p p (.map obj) 0 val err hr
    subst he
    cases val <;> simp at h
    case slice xs' =>
      refine ⟨by rw [h.1], ?_⟩
      intro hp
      subst hp
      rw [NestedFieldNoCopy_root] at hr
      cases hr

/-- Writing a value where a read succeeded: the write succeeds and replaces
exactly that value. -/
theorem setNestedFieldNoCopy_found (obj : Obj) (p : List String) (v value : Value)
    (hp : p ≠ []) (h : NestedFieldNoCopy obj p = (v, true, none)) :
    ∃ obj', setNestedFieldNoCopy obj value p = ⟨obj', .returned none⟩ ∧
      ReplacedAt obj p value obj' := by
  obtain ⟨m', hset, hrep⟩ := setNestedLoop_found value p obj p p 0 0 v none hp h
  refine ⟨m', ?_, hrep⟩
  cases p with
  | nil => exact absurd rfl hp
  | cons k rest => simp [setNestedFieldNoCopy, hset]

/-- Where a read succeeds the document is the replacement of the value read by
itself. -/
theorem ReplacedAt_self (obj : Obj) (p : List String) (v : Value)
    (hp : p ≠ []) (h : NestedFieldNoCopy obj p = (v, true, none)) : ReplacedAt obj p v obj := by
  obtain ⟨m', _, hrep⟩ := setNestedLoop_found v p obj p p 0 0 v none hp h
  have := hrep.same p 0 none h
  rw [this] at hrep
  exact hrep

theorem NestedString_of_field (obj : Obj) (p : List String) (s : String)
    (h : NestedFieldNoCopy obj p = (.str s, true, none)) :
    NestedString obj p = (s, true, none) := by
  simp [NestedString, h]

theorem NestedStringSlice_of_field (obj : Obj) (p : List String) (ss : List String)
    (h : NestedFieldNoCopy obj p = (.slice (ss.map Value.str), true, none)) :
    NestedStringSlice obj p = (ss, true, none) := by
  simp [NestedStringSlice, h, toStringSlice_map]

/-! ## The loop over a list of strings -/

theorem sliceLoop_ok (ff : fieldFunc) :
    ∀ (ss valueArr : List String) (setAny : Bool), (∀ s ∈ ss, (ff s).2.2 = none) →
      sliceLoop ff ss valueArr setAny =
        .ok (valueArr ++ ss.map (newElem ff), setAny || ss.any (fun s => (ff s).2.1)) := by
  intro ss
  induction ss with
  | nil => intro valueArr setAny _; simp [sliceLoop]
  | cons s rest ih =>
    intro valueArr setAny h
    have hs : (ff s).2.2 = none := h s (by simp)
    rcases hff : ff s with ⟨value, set, err⟩
    rw [hff] at hs
    simp only at hs
    subst hs
    simp only [sliceLoop, hff]
    rw [ih _ _ (fun x hx => h x (by simp [hx]))]
    simp [newElem, hff, Bool.or_assoc]

theorem sliceLoop_error (ff : fieldFunc) (s : String) (rest : List String) (e : GoError)
    (herr : (ff s).2.2 = some e) :
    ∀ (a valueArr : List String) (setAny : Bool), (∀ x ∈ a, (ff x).2.2 = none) →
      sliceLoop ff (a ++ s :: rest) valueArr setAny = .error e := by
  intro a
  induction a with
  | nil =>
    intro valueArr setAny _
    rcases hff : ff s with ⟨value, set, err⟩
    rw [hff] at herr
    simp only at herr
    subst herr
    simp [sliceLoop, hff]
  | cons x xs ih =>
    intro valueArr setAny h
    have hx : (ff x).2.2 = none := h x (by simp)
    rcases hff : ff x with ⟨value, set, err⟩
    rw [hff] at hx
    simp only at hx
    subst hx
    simp only [List.cons_append, sliceLoop, hff]
    exact ih _ _ (fun y hy => h y (by simp [hy]))

theorem map_newElem_of_no_apply (ff : fieldFunc) (ss : List String)
    (h : ∀ s ∈ ss, (ff s).2.1 = false) : ss.map (newElem ff) = ss := by
  induction ss with
  | nil => rfl
  | cons s rest ih =>
    have hs := h s (by simp)
    simp [newElem, hs, ih (fun x hx => h x (by simp [hx]))]

/-! ## Scalar paths -/

/-- C1: scalar replace. For a marker-free path at which `NestedString` finds
the string `V` (so the path is not empty and walks through maps), if
`ff V = (V2, true, nil)` then `applyFieldFunc` returns without an error, the
path then reads `V2`, and the document is the original one with exactly the
value at that path replaced by `V2`. -/
theorem applyFieldFunc_scalar_replace (obj : Obj) (path : List String) (ff : fieldFunc)
    (V V2 : String) (hmarker : "[]" ∉ path)
    (hread : NestedString obj path = (V, true, none))
    (hff : ff V = (V2, true, none)) :
    (applyFieldFunc obj path ff).exit = .returned none ∧
    NestedString (applyFieldFunc obj path ff).obj path = (V2, true, none) ∧
    ReplacedAt obj path (.str V2) (applyFieldFunc obj path ff).obj := by
  obtain ⟨hfield, hp⟩ := NestedString_found obj path V none hread
  obtain ⟨obj', hset, hrep⟩ := setNestedFieldNoCopy_found obj path (.str V) (.str V2) hp hfield
  have hout : applyFieldFunc obj path ff = ⟨obj', .returned none⟩ := by
    rw [applyFieldFunc_plain obj path ff hmarker]
    simp [applyPlainFieldFunc, hread, hff, SetNestedField, hset]
  rw [hout]
  exact ⟨rfl, NestedString_of_field obj' path V2 (hrep.read_new path 0), hrep⟩

/-- Witness of C1 on `{"a": {"b": "x", "c": "y"}}` at `a.b`. -/
theorem applyFieldFunc_scalar_replace_witness :
    (applyFieldFunc [("a", .map [("b", .str "x"), ("c", .str "y")])] ["a", "b"]
        (fun s => (s ++ "!", true, none))).exit = .returned none ∧
    NestedString (applyFieldFunc [("a", .map [("b", .str "x"), ("c", .str "y")])] ["a", "b"]
        (fun s => (s ++ "!", true, none))).obj ["a", "b"] = ("x!", true, none) ∧
    ReplacedAt [("a", .map [("b", .str "x"), ("c", .str "y")])] ["a", "b"] (.str "x!")
      (applyFieldFunc [("a", .map [("b", .str "x"), ("c", .str "y")])] ["a", "b"]
        (fun s => (s ++ "!", true, none))).obj :=
  applyFieldFunc_scalar_replace [("a", .map [("b", .str "x"), ("c", .str "y")])] ["a", "b"]
    (fun s => (s ++ "!", true, none)) "x" "x!" (by decide) (by rfl) (by rfl)

/-! ## Lists of strings -/

/-- What `applySliceFieldFunc` does on a list of strings on which `ff` never
fails. -/
theorem applySliceFieldFunc_ok (obj : Obj) (p : List String) (ff : fieldFunc)
    (ss : List String) (hread : NestedStringSlice obj p = (ss, true, none))
    (hff : ∀ s ∈ ss, (ff s).2.2 = none) :
    (applySliceFieldFunc obj p ff).exit = .returned none ∧
    ReplacedAt obj p (.slice ((ss.map (newElem ff)).map Value.str))
      (applySliceFieldFunc obj p ff).obj ∧
    ((∀ s ∈ ss, (ff s).2.1 = false) → (applySliceFieldFunc obj p ff).obj = obj) := by
  obtain ⟨hfield, hp⟩ := NestedStringSlice_found obj p ss none hread
  have hloop := sliceLoop_ok ff ss [] false hff
  simp only [List.nil_append, Bool.false_or] at hloop
  cases hany : ss.any (fun s => (ff s).2.1) with
  | false =>
    have hnone : ∀ s ∈ ss, (ff s).2.1 = false := by
      intro s hs
      have := List.any_eq_false.mp hany s hs
      simpa using this
    have hout : applySliceFieldFunc obj p ff = ⟨obj, .returned none⟩ := by
      simp [applySliceFieldFunc, hread, hloop, hany]
    rw [hout, map_newElem_of_no_apply ff ss hnone]
    exact ⟨rfl, ReplacedAt_self obj p _ hp hfield, fun _ => rfl⟩
  | true =>
    obtain ⟨obj', hset, hrep⟩ := setNestedFieldNoCopy_found obj p _
      (.slice ((ss.map (newElem ff)).map Value.str)) hp hfield
    have hout : applySliceFieldFunc obj p ff = ⟨obj', .returned none⟩ := by
      have hset' := hset
      rw [List.map_map] at hset'
      simp [applySliceFieldFunc, hread, hloop, hany, SetNestedStringSlice, hset']
    rw [hout]
    refine ⟨rfl, hrep, ?_⟩
    intro hnone
    rw [map_newElem_of_no_apply ff ss hnone] at hrep
    exact hrep.same p 0 none hfield

/-- C2: list-of-strings update. For a path `p ++ ["[]"]` with `p` free of the
marker, where `NestedStringSlice` finds the strings `ss` at `p` and `ff` fails
on none of them, `applyFieldFunc` returns without an error; the document is
the original one with the list at `p` replaced by the list of the same length
and order whose element is the value of `ff` where `ff` asks to apply it and
the old element otherwise (`newElem`); reading `p` gives that list; an element
on which `ff` does not apply keeps its value at its index; and when `ff`
applies to no element the document is the original one. -/
theorem applyFieldFunc_string_list (obj : Obj) (p : List String) (ff : fieldFunc)
    (ss : List String) (hmarker : "[]" ∉ p)
    (hread : NestedStringSlice obj p = (ss, true, none))
    (hff : ∀ s ∈ ss, (ff s).2.2 = none) :
    (applyFieldFunc obj (p ++ ["[]"]) ff).exit = .returned none ∧
    ReplacedAt obj p (.slice ((ss.map (newElem ff)).map Value.str))
      (applyFieldFunc obj (p ++ ["[]"]) ff).obj ∧
    NestedStringSlice (applyFieldFunc obj (p ++ ["[]"]) ff).obj p =
      (ss.map (newElem ff), true, none) ∧
    (ss.map (newElem ff)).length = ss.length ∧
    (∀ (i : Nat) (s : String), ss[i]? = some s → (ff s).2.1 = false →
      (ss.map (newElem ff))[i]? = some s) ∧
    ((∀ s ∈ ss, (ff s).2.1 = false) → (applyFieldFunc obj (p ++ ["[]"]) ff).obj = obj) := by
  rw [applyFieldFunc_slice obj p ff hmarker]
  obtain ⟨h1, h2, h3⟩ := applySliceFieldFunc_ok obj p ff ss hread hff
  refine ⟨h1, h2, ?_, by simp, ?_, h3⟩
  · exact NestedStringSlice_of_field _ p _ (h2.read_new p 0)
  · intro i s hi hs
    simp [List.getElem?_map, hi, newElem, hs]

/-- Witness of C2 on `{"a": {"b": ["x", "keep", "y"]}}` at `a.b.[]`, with a
function that rewrites every string but `"keep"`. -/
theorem applyFieldFunc_string_list_witness :
    (applyFieldFunc stringsDoc (["a", "b"] ++ ["[]"]) bangUnlessKeep).exit = .returned none ∧
    ReplacedAt stringsDoc ["a", "b"]
      (.slice ((["x", "keep", "y"].map (newElem bangUnlessKeep)).map Value.str))
      (applyFieldFunc stringsDoc (["a", "b"] ++ ["[]"]) bangUnlessKeep).obj ∧
    NestedStringSlice (applyFieldFunc stringsDoc (["a", "b"] ++ ["[]"]) bangUnlessKeep).obj
      ["a", "b"] = (["x", "keep", "y"].map (newElem bangUnlessKeep), true, none) ∧
    (["x", "keep", "y"].map (newElem bangUnlessKeep)).length = ["x", "keep", "y"].length ∧
    (∀ (i : Nat) (s : String), ["x", "keep", "y"][i]? = some s → (bangUnlessKeep s).2.1 = false →
      (["x", "keep", "y"].map (newElem bangUnlessKeep))[i]? = some s) ∧
    ((∀ s ∈ ["x", "keep", "y"], (bangUnlessKeep s).2.1 = false) →
      (applyFieldFunc stringsDoc (["a", "b"] ++ ["[]"]) bangUnlessKeep).obj = stringsDoc) :=
  applyFieldFunc_string_list stringsDoc ["a", "b"] bangUnlessKeep ["x", "keep", "y"]
    (by decide) (by rfl) (by simp [bangUnlessKeep])

/-- The list of C2's witness, evaluated: `"keep"` keeps its value and its
place. -/
theorem scenario_strings_evaluated :
    applyFieldFunc stringsDoc ["a", "b", "[]"] bangUnlessKeep =
      ⟨[("a", .map [("b", .slice [.str "x!", .str "keep", .str "y!"])])], .returned none⟩ := by
  rw [show (["a", "b", "[]"] : List String) = ["a", "b"] ++ ["[]"] from rfl,
    applyFieldFunc_slice _ _ _ (by decide)]
  simp [applySliceFieldFunc, stringsDoc, bangUnlessKeep, NestedStringSlice, NestedFieldNoCopy,
    nestedFieldLoop, mapGet, toStringSlice, sliceLoop, SetNestedStringSlice,
    setNestedFieldNoCopy, setNestedLoop, mapSet]

/-- C7: fail-fast without a partial write. For a path `p ++ ["[]"]` with `p`
free of the marker, where `NestedStringSlice` finds the strings
`a ++ s :: b` at `p`, if `ff` fails on no element of `a` and returns the
error `e` on `s`, then `applyFieldFunc` returns exactly `e` and the document is
unchanged. -/
theorem applyFieldFunc_string_list_fail_fast (obj : Obj) (p : List String) (ff : fieldFunc)
    (a : List String) (s : String) (b : List String) (e : GoError) (hmarker : "[]" ∉ p)
    (hread : NestedStringSlice obj p = (a ++ s :: b, true, none))
    (hearlier : ∀ x ∈ a, (ff x).2.2 = none) (herr : (ff s).2.2 = some e) :
    applyFieldFunc obj (p ++ ["[]"]) ff = ⟨obj, .returned (some e)⟩ := by
  rw [applyFieldFunc_slice obj p ff hmarker]
  have hloop := sliceLoop_error ff s b e herr a [] false hearlier
  simp [applySliceFieldFunc, hread, hloop]

/-- Witness of C7 on `{"a": ["x", "bad", "y"]}` at `a.[]`: `ff` applies a new
value on `"x"` and fails on `"bad"`. -/
theorem applyFieldFunc_string_list_fail_fast_witness :
    applyFieldFunc [("a", .slice [.str "x", .str "bad", .str "y"])] (["a"] ++ ["[]"])
        (fun s => if s = "bad" then ("", false, some (.custom "boom")) else (s ++ "!", true, none)) =
      ⟨[("a", .slice [.str "x", .str "bad", .str "y"])], .returned (some (.custom "boom"))⟩ :=
  applyFieldFunc_string_list_fail_fast [("a", .slice [.str "x", .str "bad", .str "y"])] ["a"]
    (fun s => if s = "bad" then ("", false, some (.custom "boom")) else (s ++ "!", true, none))
    ["x"] "bad" ["y"] (.custom "boom") (by decide) (by rfl) (by simp) (by rfl)

/-! ## Absent paths and shape mismatches -/

theorem nestedFieldLoop_append (f : List String) (r : List String) :
    ∀ (q : List String) (val : Value) (c : Nat) (v : Value),
      nestedFieldLoop f val c q = (v, true, none) →
      nestedFieldLoop f val c (q ++ r) = nestedFieldLoop f v (c + q.length) r := by
  intro q
  induction q with
  | nil =>
    intro val c v h
    simp [nestedFieldLoop] at h
    simp [h]
  | cons k rest ih =>
    intro val c v h
    obtain ⟨m, v1, hm, hg, h2⟩ := nestedFieldLoop_found_map f val c k rest v none h
    subst hm
    have e : nestedFieldLoop f (.map m) c (k :: (rest ++ r)) =
        nestedFieldLoop f v1 (c + 1) (rest ++ r) := by
      simp only [nestedFieldLoop, hg]
    rw [List.cons_append, e, ih v1 (c + 1) v h2, List.length_cons]
    congr 1
    omega

/-- The walk stops as not found at a map that lacks the next key. -/
theorem NestedFieldNoCopy_absent (obj : Obj) (q : List String) (k : String) (r : List String)
    (m : Obj) (hq : NestedFieldNoCopy obj q = (.map m, true, none)) (hk : mapGet m k = none) :
    NestedFieldNoCopy obj (q ++ k :: r) = (.null, false, none) := by
  have h := nestedFieldLoop_indep q (q ++ k :: r) q (.map obj) 0 0 (.map m) none hq
  unfold NestedFieldNoCopy
  rw [nestedFieldLoop_append (q ++ k :: r) (k :: r) q (.map obj) 0 (.map m) h]
  simp [nestedFieldLoop, hk]

/-- The walk fails at a value that is neither a map nor `nil` when a key is
still to be looked up in it. -/
theorem NestedFieldNoCopy_not_map (obj : Obj) (q : List String) (k : String) (r : List String)
    (v : Value) (hq : NestedFieldNoCopy obj q = (v, true, none))
    (hmap : ∀ m, v ≠ .map m) (hnull : v ≠ .null) :
    NestedFieldNoCopy obj (q ++ k :: r) =
      (.null, false, some (.accessor .notMap (q ++ [k]))) := by
  have h := nestedFieldLoop_indep q (q ++ k :: r) q (.map obj) 0 0 v none hq
  unfold NestedFieldNoCopy
  rw [nestedFieldLoop_append (q ++ k :: r) (k :: r) q (.map obj) 0 v h]
  have htake : List.take (0 + q.length + 1) (q ++ k :: r) = q ++ [k] := by
    rw [Nat.zero_add, List.take_append_eq_append_take]
    simp
  cases v with
  | map m => exact absurd rfl (hmap m)
  | null => exact absurd rfl hnull
  | _ => simp only [nestedFieldLoop, htake]

theorem applyPlainFieldFunc_read_error (obj : Obj) (path : List String) (ff : fieldFunc)
    (e : GoError) (h : (NestedString obj path).2.2 = some e) :
    applyPlainFieldFunc obj path ff =
      ⟨obj, .returned (some (.errorf "error reading object: " e))⟩ := by
  rcases hr : NestedString obj path with ⟨s, ok, err⟩
  rw [hr] at h
  simp only at h
  subst h
  simp [applyPlainFieldFunc, hr]

theorem NestedString_not_string (obj : Obj) (path : List String) (v : Value)
    (h : NestedFieldNoCopy obj path = (v, true, none)) (hv : ∀ s, v ≠ .str s) :
    NestedString obj path = ("", false, some (.accessor .notString path)) := by
  cases v with
  | str s => exact absurd rfl (hv s)
  | _ => simp [NestedString, h]

/-- The empty path reads the root map as a string, which is a read error. -/
theorem applyPlainFieldFunc_nil (obj : Obj) (ff : fieldFunc) :
    applyPlainFieldFunc obj [] ff =
      ⟨obj, .returned (some (.errorf "error reading object: " (.accessor .notString [])))⟩ := by
  apply applyPlainFieldFunc_read_error
  rw [NestedString_not_string obj [] (.map obj) (NestedFieldNoCopy_root obj) (by simp)]

/-- C9, as amended: on the empty path `applyFieldFunc` leaves the document
unchanged, but it does not return success: `NestedString` reads the root map
where a string is expected and the read error is returned, wrapped as
"error reading object". -/
theorem applyFieldFunc_empty_path (obj : Obj) (ff : fieldFunc) :
    applyFieldFunc obj [] ff =
      ⟨obj, .returned (some (.errorf "error reading object: " (.accessor .notString [])))⟩ := by
  rw [applyFieldFunc_plain obj [] ff (by simp)]
  exact applyPlainFieldFunc_nil obj ff

/-- C9 as stated fails: on `{"a": "x"}` with the empty path and a function that
never applies, the call does not return success. -/
theorem applyFieldFunc_empty_path_not_success :
    (applyFieldFunc [("a", .str "x")] [] (fun v => (v, false, none))).exit ≠ .returned none := by
  rw [applyFieldFunc_plain _ [] _ (by simp), applyPlainFieldFunc_nil]
  decide

/-- C10, as amended: for a marker-free path whose value is present but of an
incompatible shape (the walk ends on a value that is not a string, or a
segment before the last holds a value that is neither a map nor `nil`),
`applyFieldFunc` leaves the document unchanged and returns the read error
wrapped as "error reading object", not success. -/
theorem applyFieldFunc_scalar_shape_mismatch (obj : Obj) (path : List String) (ff : fieldFunc)
    (hmarker : "[]" ∉ path)
    (hshape : (∃ v, NestedFieldNoCopy obj path = (v, true, none) ∧ ∀ s, v ≠ .str s) ∨
      (∃ q k r v, path = q ++ k :: r ∧ NestedFieldNoCopy obj q = (v, true, none) ∧
        (∀ m, v ≠ .map m) ∧ v ≠ .null)) :
    ∃ e, applyFieldFunc obj path ff =
      ⟨obj, .returned (some (.errorf "error reading object: " e))⟩ := by
  rw [applyFieldFunc_plain obj path ff hmarker]
  rcases hshape with ⟨v, hv, hstr⟩ | ⟨q, k, r, v, hpath, hq, hmap, hnull⟩
  · refine ⟨.accessor .notString path, applyPlainFieldFunc_read_error obj path ff _ ?_⟩
    rw [NestedString_not_string obj path v hv hstr]
  · refine ⟨.accessor .notMap (q ++ [k]), applyPlainFieldFunc_read_error obj path ff _ ?_⟩
    subst hpath
    simp [NestedString, NestedFieldNoCopy_not_map obj q k r v hq hmap hnull]

/-- Witness of C10 on `{"a": {"b": "x"}}` at `a`, where a map is found. -/
theorem applyFieldFunc_scalar_shape_mismatch_witness :
    ∃ e, applyFieldFunc [("a", .map [("b", .str "x")])] ["a"] (fun v => (v, true, none)) =
      ⟨[("a", .map [("b", .str "x")])], .returned (some (.errorf "error reading object: " e))⟩ :=
  applyFieldFunc_scalar_shape_mismatch [("a", .map [("b", .str "x")])] ["a"]
    (fun v => (v, true, none)) (by decide)
    (Or.inl ⟨.map [("b", .str "x")], rfl, by simp⟩)

/-- C10 as stated fails: on `{"a": {"b": "x"}}` at `a` the call does not return
success. -/
theorem applyFieldFunc_scalar_shape_mismatch_not_success :
    (applyFieldFunc [("a", .map [("b", .str "x")])] ["a"] (fun v => (v, true, none))).exit
      ≠ .returned none := by
  rw [applyFieldFunc_plain _ ["a"] _ (by decide)]
  decide

/-- C5: absence is a silent no-op. When the segments before the first marker
(all of them when there is none) walk through maps down to a map `m` that lacks
the next key `k`, `applyFieldFunc` returns without an error and the document is
the original one, whatever follows `k` in the path and whatever `ff` is. -/
theorem applyFieldFunc_absent (obj : Obj) (q : List String) (k : String) (r : List String)
    (ff : fieldFunc) (m : Obj) (hq : "[]" ∉ q) (hk : k ≠ "[]")
    (hwalk : NestedFieldNoCopy obj q = (.map m, true, none)) (habsent : mapGet m k = none) :
    applyFieldFunc obj (q ++ k :: r) ff = ⟨obj, .returned none⟩ := by
  rcases path_cases r "[]" with hr | ⟨r1, r2, hr, hr1⟩
  · have hfree : "[]" ∉ q ++ k :: r := by
      simp only [List.mem_append, List.mem_cons, not_or]
      exact ⟨hq, fun e => hk e.symm, hr⟩
    rw [applyFieldFunc_plain obj _ ff hfree]
    simp [applyPlainFieldFunc, NestedString, NestedFieldNoCopy_absent obj q k r m hwalk habsent]
  · subst hr
    have hfree : "[]" ∉ q ++ k :: r1 := by
      simp only [List.mem_append, List.mem_cons, not_or]
      exact ⟨hq, fun e => hk e.symm, hr1⟩
    have hpath : q ++ k :: (r1 ++ "[]" :: r2) = (q ++ k :: r1) ++ "[]" :: r2 := by simp
    rw [hpath]
    cases r2 with
    | nil =>
      rw [applyFieldFunc_slice obj _ ff hfree]
      simp [applySliceFieldFunc, NestedStringSlice,
        NestedFieldNoCopy_absent obj q k r1 m hwalk habsent]
    | cons x xs =>
      rw [applyFieldFunc_nested obj _ (x :: xs) ff hfree (by simp)]
      simp [nestedBody, NestedSlice, NestedFieldNoCopy_absent obj q k r1 m hwalk habsent]

/-- Witness of C5 on `{"a": {"c": "y"}}` at `a.b.[].d`: the map at `a` has no key
`b`. -/
theorem applyFieldFunc_absent_witness :
    applyFieldFunc [("a", .map [("c", .str "y")])] (["a"] ++ "b" :: ["[]", "d"])
        (fun v => (v ++ "!", true, none)) =
      ⟨[("a", .map [("c", .str "y")])], .returned none⟩ :=
  applyFieldFunc_absent [("a", .map [("c", .str "y")])] ["a"] "b" ["[]", "d"]
    (fun v => (v ++ "!", true, none)) [("c", .str "y")] (by decide) (by decide) rfl rfl

/-! ## Nested descent -/

theorem nestedLoop_ok (recurse : Obj → Outcome) :
    ∀ (elems : List Obj) (updated : List Value),
      (∀ e ∈ elems, (recurse e).exit = .returned none) →
      nestedLoop recurse (elems.map Value.map) updated =
        .ok (updated ++ elems.map (fun e => Value.map (recurse e).obj)) := by
  intro elems
  induction elems with
  | nil => intro updated _; simp [nestedLoop]
  | cons e rest ih =>
    intro updated h
    have he : (recurse e).exit = .returned none := h e (by simp)
    rcases hrec : recurse e with ⟨o, ex⟩
    rw [hrec] at he
    simp only at he
    subst he
    simp only [List.map_cons, nestedLoop, hrec]
    rw [ih _ (fun x hx => h x (by simp [hx]))]
    simp

theorem nestedLoop_fail (recurse : Obj → Outcome) (e : Obj) (b : List Obj)
    (hfail : (recurse e).exit ≠ .returned none) :
    ∀ (a : List Obj) (updated : List Value),
      (∀ x ∈ a, (recurse x).exit = .returned none) →
      nestedLoop recurse ((a ++ e :: b).map Value.map) updated = .error (recurse e).exit := by
  intro a
  induction a with
  | nil =>
    intro updated _
    rcases hrec : recurse e with ⟨o, ex⟩
    rw [hrec] at hfail
    cases ex with
    | panicked => simp [nestedLoop, hrec]
    | returned err =>
      cases err with
      | none => exact absurd rfl hfail
      | some err => simp [nestedLoop, hrec]
  | cons x xs ih =>
    intro updated h
    have hx : (recurse x).exit = .returned none := h x (by simp)
    rcases hrec : recurse x with ⟨o, ex⟩
    rw [hrec] at hx
    simp only at hx
    subst hx
    simp only [List.cons_append, List.map_cons, nestedLoop, hrec]
    exact ih _ (fun y hy => h y (by simp [hy]))

/-- Nested descent over a list of maps on which every recursive call
succeeds: the list of the results is written back at the prefix. -/
theorem nestedBody_ok (obj : Obj) (p s : List String) (ff : fieldFunc) (elems : List Obj)
    (hread : NestedSlice obj p = (elems.map Value.map, true, none))
    (hall : ∀ e ∈ elems, (applyFieldFunc e s ff).exit = .returned none) :
    (nestedBody obj p s ff).exit = .returned none ∧
    ReplacedAt obj p (.slice (elems.map (fun e => Value.map (applyFieldFunc e s ff).obj)))
      (nestedBody obj p s ff).obj := by
  obtain ⟨hfield, hp⟩ := NestedSlice_found obj p _ none hread
  obtain ⟨obj', hset, hrep⟩ := setNestedFieldNoCopy_found obj p _
    (.slice (elems.map (fun e => Value.map (applyFieldFunc e s ff).obj))) hp hfield
  have hloop := nestedLoop_ok (fun nestedObj => applyFieldFunc nestedObj s ff) elems [] hall
  simp only [List.nil_append] at hloop
  have hout : nestedBody obj p s ff = ⟨obj', .returned none⟩ := by
    simp only [nestedBody, hread, hloop, SetNestedSlice, SetNestedField, hset]
    simp
  rw [hout]
  exact ⟨rfl, hrep⟩

/-- Nested descent stops at the first element whose recursive call does not
succeed, and nothing is written. -/
theorem nestedBody_fail (obj : Obj) (p s : List String) (ff : fieldFunc)
    (a : List Obj) (e : Obj) (b : List Obj)
    (hread : NestedSlice obj p = ((a ++ e :: b).map Value.map, true, none))
    (hearlier : ∀ x ∈ a, (applyFieldFunc x s ff).exit = .returned none)
    (hfail : (applyFieldFunc e s ff).exit ≠ .returned none) :
    nestedBody obj p s ff = ⟨obj, (applyFieldFunc e s ff).exit⟩ := by
  have hloop := nestedLoop_fail (fun nestedObj => applyFieldFunc nestedObj s ff) e b hfail a []
    hearlier
  simp only [nestedBody, hread, hloop]
  simp

/-- C3: nested descent equation. For a path `pre ++ "[]" :: suffix` with `pre`
free of the marker and `suffix` not empty, where `NestedSlice` finds at `pre` a
list whose elements are the maps `elems`: when `applyFieldFunc e suffix ff`
succeeds on every element, `applyFieldFunc` succeeds and the document is the
original one with the list at `pre` replaced by the list of the per-element
results, in the same order; otherwise the call ends the way the call on the
first failing element ends (with its error), and the document is unchanged. -/
theorem applyFieldFunc_nested_descent (obj : Obj) (pre suffix : List String) (ff : fieldFunc)
    (elems : List Obj) (hmarker : "[]" ∉ pre) (hsuffix : suffix ≠ [])
    (hread : NestedSlice obj pre = (elems.map Value.map, true, none)) :
    ((∀ e ∈ elems, (applyFieldFunc e suffix ff).exit = .returned none) →
      (applyFieldFunc obj (pre ++ "[]" :: suffix) ff).exit = .returned none ∧
      ReplacedAt obj pre
        (.slice (elems.map (fun e => Value.map (applyFieldFunc e suffix ff).obj)))
        (applyFieldFunc obj (pre ++ "[]" :: suffix) ff).obj) ∧
    (∀ (a : List Obj) (e : Obj) (b : List Obj), elems = a ++ e :: b →
      (∀ x ∈ a, (applyFieldFunc x suffix ff).exit = .returned none) →
      (applyFieldFunc e suffix ff).exit ≠ .returned none →
      applyFieldFunc obj (pre ++ "[]" :: suffix) ff = ⟨obj, (applyFieldFunc e suffix ff).exit⟩) := by
  rw [applyFieldFunc_nested obj pre suffix ff hmarker hsuffix]
  refine ⟨nestedBody_ok obj pre suffix ff elems hread, ?_⟩
  intro a e b hsplit hearlier hfail
  subst hsplit
  exact nestedBody_fail obj pre suffix ff a e b hread hearlier hfail

/-- Witness of C3 on the container scenario: both recursive calls succeed. -/
theorem applyFieldFunc_nested_descent_witness :
    (applyFieldFunc scenarioDoc (["spec", "containers"] ++ "[]" :: ["image"])
        scenarioFunc).exit = .returned none ∧
    ReplacedAt scenarioDoc ["spec", "containers"]
      (.slice (scenarioElems.map (fun e => Value.map (applyFieldFunc e ["image"] scenarioFunc).obj)))
      (applyFieldFunc scenarioDoc (["spec", "containers"] ++ "[]" :: ["image"]) scenarioFunc).obj :=
  (applyFieldFunc_nested_descent scenarioDoc ["spec", "containers"] ["image"] scenarioFunc
    scenarioElems (by decide) (by simp) rfl).1 (by
      intro e he
      rw [applyFieldFunc_plain e ["image"] scenarioFunc (by decide)]
      simp only [scenarioElems, List.mem_cons, List.mem_singleton, List.not_mem_nil, or_false] at he
      rcases he with rfl | rfl <;> rfl)

/-- One sub-document under the path `[b]`: the call succeeds and the
sub-document is updated as `ElemUpdated` says. -/
theorem applyFieldFunc_field (e : Obj) (b : String) (ff : fieldFunc) (hb : b ≠ "[]")
    (hff : ∀ s, (ff s).2.2 = none)
    (hshape : mapGet e b = none ∨ ∃ s, mapGet e b = some (.str s)) :
    (applyFieldFunc e [b] ff).exit = .returned none ∧
    ElemUpdated ff b e (applyFieldFunc e [b] ff).obj := by
  have hfree : "[]" ∉ [b] := by
    simp only [List.mem_singleton]
    exact fun h => hb h.symm
  rw [applyFieldFunc_plain e [b] ff hfree]
  rcases hshape with hnone | ⟨s, hs⟩
  · have hout : applyPlainFieldFunc e [b] ff = ⟨e, .returned none⟩ := by
      simp [applyPlainFieldFunc, NestedString, NestedFieldNoCopy, nestedFieldLoop, hnone]
    rw [hout]
    simp [ElemUpdated, hnone]
  · have hread : NestedString e [b] = (s, true, none) := by
      simp [NestedString, NestedFieldNoCopy, nestedFieldLoop, hs]
    have hs2 := hff s
    rcases hffs : ff s with ⟨value, set, err⟩
    rw [hffs] at hs2
    simp only at hs2
    subst hs2
    cases set with
    | false =>
      have hout : applyPlainFieldFunc e [b] ff = ⟨e, .returned none⟩ := by
        simp [applyPlainFieldFunc, hread, hffs]
      rw [hout]
      simp [ElemUpdated, hs, hffs]
    | true =>
      obtain ⟨pre, post, hsplit, hpre⟩ := mapGet_split e b (.str s) hs
      have hout : applyPlainFieldFunc e [b] ff = ⟨mapSet e b (.str value), .returned none⟩ := by
        simp [applyPlainFieldFunc, hread, hffs, SetNestedField, setNestedFieldNoCopy,
          setNestedLoop]
      rw [hout]
      refine ⟨rfl, ?_⟩
      simp only [ElemUpdated, hs, hffs, if_true]
      rw [hsplit, mapSet_append pre post b (.str s) (.str value) hpre]
      exact ReplacedAt.leaf pre post b (.str s) (.str value) hpre

/-- C4: sibling independence in nested descent. For a path
`pre ++ ["[]", b]` (`pre` free of the marker, `b` a key, not the marker) where
`NestedSlice` finds at `pre` a list of maps `elems`, each of which lacks `b`
or holds a string at `b`, and `ff` never fails: `applyFieldFunc` succeeds and
the document is the original one with the list at `pre` replaced by a list
`elems'` of the same length whose elements are, position by position, the
updates of the original elements (`ElemUpdated`): the value of `ff` at `b`
where the element holds `b` and `ff` applies, the element itself otherwise. -/
theorem applyFieldFunc_siblings (obj : Obj) (pre : List String) (b : String) (ff : fieldFunc)
    (elems : List Obj) (hmarker : "[]" ∉ pre) (hb : b ≠ "[]")
    (hread : NestedSlice obj pre = (elems.map Value.map, true, none))
    (hshape : ∀ e ∈ elems, mapGet e b = none ∨ ∃ s, mapGet e b = some (.str s))
    (hff : ∀ s, (ff s).2.2 = none) :
    (applyFieldFunc obj (pre ++ ["[]", b]) ff).exit = .returned none ∧
    ∃ elems' : List Obj, elems'.length = elems.length ∧
      List.Forall₂ (ElemUpdated ff b) elems elems' ∧
      ReplacedAt obj pre (.slice (elems'.map Value.map))
        (applyFieldFunc obj (pre ++ ["[]", b]) ff).obj := by
  rw [applyFieldFunc_nested obj pre [b] ff hmarker (by simp)]
  have hall : ∀ e ∈ elems, (applyFieldFunc e [b] ff).exit = .returned none :=
    fun e he => (applyFieldFunc_field e b ff hb hff (hshape e he)).1
  obtain ⟨hexit, hrep⟩ := nestedBody_ok obj pre [b] ff elems hread hall
  refine ⟨hexit, elems.map (fun e => (applyFieldFunc e [b] ff).obj), by simp, ?_, ?_⟩
  · rw [List.forall₂_map_right_iff, List.forall₂_same]
    exact fun e he => (applyFieldFunc_field e b ff hb hff (hshape e he)).2
  · rw [List.map_map]
    exact hrep

/-- Witness of C4 on a list of three sub-documents of which only the second has
`b`. -/
theorem applyFieldFunc_siblings_witness :
    (applyFieldFunc threeDoc (["a"] ++ ["[]", "b"]) (fun s => (s ++ "!", true, none))).exit
      = .returned none ∧
    ∃ elems' : List Obj, elems'.length = threeElems.length ∧
      List.Forall₂ (ElemUpdated (fun s => (s ++ "!", true, none)) "b") threeElems elems' ∧
      ReplacedAt threeDoc ["a"] (.slice (elems'.map Value.map))
        (applyFieldFunc threeDoc (["a"] ++ ["[]", "b"]) (fun s => (s ++ "!", true, none))).obj :=
  applyFieldFunc_siblings threeDoc ["a"] "b" (fun s => (s ++ "!", true, none)) threeElems
    (by decide) (by decide) rfl (by simp [threeElems, mapGet]) (by simp)

/-- The two concrete cases of C4, evaluated: in the list of three
sub-documents only the second one changes. -/
theorem scenario_three_evaluated :
    applyFieldFunc threeDoc ["a", "[]", "b"] (fun s => (s ++ "!", true, none)) =
      ⟨[("a", .slice [.map [("x", .str "1")], .map [("b", .str "old!")], .map []])],
        .returned none⟩ := by
  rw [show (["a", "[]", "b"] : List String) = ["a"] ++ "[]" :: ["b"] from rfl,
    applyFieldFunc_nested _ _ _ _ (by decide) (by simp)]
  simp [nestedBody, threeDoc, NestedSlice, NestedFieldNoCopy, nestedFieldLoop, mapGet,
    nestedLoop, applyFieldFunc_plain _ ["b"] _ (by decide), applyPlainFieldFunc, NestedString,
    SetNestedField, SetNestedSlice, setNestedFieldNoCopy, setNestedLoop, mapSet]

/-- The container scenario, evaluated: the first image becomes `repo/app:v2`,
the second stays `static:latest`, the list keeps its length and order. -/
theorem scenario_containers_evaluated :
    applyFieldFunc scenarioDoc ["spec", "containers", "[]", "image"] scenarioFunc =
      ⟨[("spec", .map [("containers", .slice [.map [("image", .str "repo/app:v2")],
          .map [("image", .str "static:latest")]])])], .returned none⟩ := by
  rw [show (["spec", "containers", "[]", "image"] : List String)
      = ["spec", "containers"] ++ "[]" :: ["image"] from rfl,
    applyFieldFunc_nested _ _ _ _ (by decide) (by simp)]
  simp [nestedBody, scenarioDoc, scenarioFunc, NestedSlice, NestedFieldNoCopy, nestedFieldLoop,
    mapGet, nestedLoop, applyFieldFunc_plain _ ["image"] _ (by decide), applyPlainFieldFunc,
    NestedString, SetNestedField, SetNestedSlice, setNestedFieldNoCopy, setNestedLoop, mapSet]

/-! ## Shapes -/

mutual

theorem sameShape_refl : ∀ v : Value, sameShape v v = true
  | .str _ => by simp [sameShape]
  | .slice xs => by simp [sameShape, sameShapeList_refl xs]
  | .map kvs => by simp [sameShape, sameShapeKvs_refl kvs]
  | .null => by simp [sameShape]
  | .scalar _ => by simp [sameShape]

theorem sameShapeList_refl : ∀ xs : List Value, sameShapeList xs xs = true
  | [] => by simp [sameShapeList]
  | x :: xs => by simp [sameShapeList, sameShape_refl x, sameShapeList_refl xs]

theorem sameShapeKvs_refl : ∀ kvs : List (String × Value), sameShapeKvs kvs kvs = true
  | [] => by simp [sameShapeKvs]
  | (_, x) :: xs => by simp [sameShapeKvs, sameShape_refl x, sameShapeKvs_refl xs]

end

theorem sameShapeKvs_append_cons (k : String) (a b : Value) (post : Obj)
    (h : sameShape a b = true) :
    ∀ pre : Obj, sameShapeKvs (pre ++ (k, a) :: post) (pre ++ (k, b) :: post) = true := by
  intro pre
  induction pre with
  | nil => simp [sameShapeKvs, h, sameShapeKvs_refl post]
  | cons kv rest ih =>
    obtain ⟨k', v'⟩ := kv
    simp [sameShapeKvs, sameShape_refl v', ih]

theorem sameShapeList_append (acc : List Value) :
    ∀ xs ys : List Value, sameShapeList xs ys = true →
      sameShapeList (acc ++ xs) (acc ++ ys) = true := by
  induction acc with
  | nil => intro xs ys h; simpa using h
  | cons a rest ih =>
    intro xs ys h
    simp [sameShapeList, sameShape_refl a, ih xs ys h]

theorem sameShapeList_str :
    ∀ ss ts : List String, ss.length = ts.length →
      sameShapeList (ss.map Value.str) (ts.map Value.str) = true := by
  intro ss
  induction ss with
  | nil =>
    intro ts h
    cases ts with
    | nil => simp [sameShapeList]
    | cons t rest => simp at h
  | cons s rest ih =>
    intro ts h
    cases ts with
    | nil => simp at h
    | cons t rest' =>
      simp only [List.length_cons, add_left_inj] at h
      simp [sameShapeList, sameShape, ih rest' h]

/-- A replacement by a value of the same shape keeps the shape of the
document. -/
theorem ReplacedAt.shape {m m' : Obj} {p : List String} {v : Value}
    (h : ReplacedAt m p v m') (f : List String) :
    ∀ c old e, nestedFieldLoop f (.map m) c p = (old, true, e) → sameShape old v = true →
      sameShapeKvs m m' = true := by
  induction h with
  | leaf pre post k old' v hpre =>
    intro c old e hr hs
    simp [nestedFieldLoop, mapGet_append pre post k old' hpre] at hr
    rw [hr.1]
    exact sameShapeKvs_append_cons k old v post hs pre
  | step pre post k m m' rest v hpre _ ih =>
    intro c old e hr hs
    simp only [nestedFieldLoop, mapGet_append pre post k (.map m) hpre] at hr
    have := ih (c + 1) old e hr hs
    exact sameShapeKvs_append_cons k (.map m) (.map m') post (by simpa [sameShape] using this) pre

theorem sliceLoop_length (ff : fieldFunc) :
    ∀ (ss valueArr : List String) (setAny : Bool) (arr : List String) (b : Bool),
      sliceLoop ff ss valueArr setAny = .ok (arr, b) →
      arr.length = valueArr.length + ss.length := by
  intro ss
  induction ss with
  | nil =>
    intro valueArr setAny arr b h
    simp [sliceLoop] at h
    simp [h.1]
  | cons s rest ih =>
    intro valueArr setAny arr b h
    rcases hff : ff s with ⟨value, set, err⟩
    cases err with
    | some e => simp [sliceLoop, hff] at h
    | none =>
      simp only [sliceLoop, hff] at h
      have := ih _ _ _ _ h
      simp only [List.length_append, List.length_singleton] at this
      simp only [List.length_cons]
      omega

theorem applyPlainFieldFunc_shape (obj : Obj) (path : List String) (ff : fieldFunc) :
    sameShapeKvs obj (applyPlainFieldFunc obj path ff).obj = true := by
  rcases hr : NestedString obj path with ⟨s, ok, err⟩
  cases err with
  | some e => simp [applyPlainFieldFunc, hr, sameShapeKvs_refl]
  | none =>
    cases ok with
    | false => simp [applyPlainFieldFunc, hr, sameShapeKvs_refl]
    | true =>
      obtain ⟨hfield, hp⟩ := NestedString_found obj path s none hr
      rcases hff : ff s with ⟨value, set, err⟩
      cases err with
      | some e => simp [applyPlainFieldFunc, hr, hff, sameShapeKvs_refl]
      | none =>
        cases set with
        | false => simp [applyPlainFieldFunc, hr, hff, sameShapeKvs_refl]
        | true =>
          obtain ⟨obj', hset, hrep⟩ :=
            setNestedFieldNoCopy_found obj path (.str s) (.str value) hp hfield
          have hout : applyPlainFieldFunc obj path ff = ⟨obj', .returned none⟩ := by
            simp [applyPlainFieldFunc, hr, hff, SetNestedField, hset]
          rw [hout]
          exact hrep.shape path 0 (.str s) none hfield (by simp [sameShape])

theorem applySliceFieldFunc_shape (obj : Obj) (p : List String) (ff : fieldFunc) :
    sameShapeKvs obj (applySliceFieldFunc obj p ff).obj = true := by
  rcases hr : NestedStringSlice obj p with ⟨ss, ok, err⟩
  cases err with
  | some e => simp [applySliceFieldFunc, hr, sameShapeKvs_refl]
  | none =>
    cases ok with
    | false => simp [applySliceFieldFunc, hr, sameShapeKvs_refl]
    | true =>
      obtain ⟨hfield, hp⟩ := NestedStringSlice_found obj p ss none hr
      cases hloop : sliceLoop ff ss [] false with
      | error e => simp [applySliceFieldFunc, hr, hloop, sameShapeKvs_refl]
      | ok res =>
        obtain ⟨arr, setAny⟩ := res
        have hlen := sliceLoop_length ff ss [] false arr setAny hloop
        cases setAny with
        | false => simp [applySliceFieldFunc, hr, hloop, sameShapeKvs_refl]
        | true =>
          obtain ⟨obj', hset, hrep⟩ := setNestedFieldNoCopy_found obj p
            (.slice (ss.map Value.str)) (.slice (arr.map Value.str)) hp hfield
          have hout : applySliceFieldFunc obj p ff = ⟨obj', .returned none⟩ := by
            simp [applySliceFieldFunc, hr, hloop, SetNestedStringSlice, hset]
          rw [hout]
          refine hrep.shape p 0 (.slice (ss.map Value.str)) none hfield ?_
          simp only [sameShape]
          exact sameShapeList_str ss arr (by simp at hlen; omega)

theorem nestedLoop_shape (recurse : Obj → Outcome)
    (h : ∀ m, sameShapeKvs m (recurse m).obj = true) :
    ∀ (xs updated u : List Value), nestedLoop recurse xs updated = .ok u →
      ∃ ys, u = updated ++ ys ∧ sameShapeList xs ys = true := by
  intro xs
  induction xs with
  | nil =>
    intro updated u hl
    simp [nestedLoop] at hl
    exact ⟨[], by simp [hl], by simp [sameShapeList]⟩
  | cons x rest ih =>
    intro updated u hl
    cases x with
    | map m =>
      have hm := h m
      rcases hrec : recurse m with ⟨o, ex⟩
      rw [hrec] at hm
      cases ex with
      | panicked => simp [nestedLoop, hrec] at hl
      | returned err =>
        cases err with
        | some e => simp [nestedLoop, hrec] at hl
        | none =>
          simp only [nestedLoop, hrec] at hl
          obtain ⟨ys, hu, hs⟩ := ih _ _ hl
          refine ⟨.map o :: ys, by simp [hu], ?_⟩
          simp only at hm
          simp [sameShapeList, sameShape, hm, hs]
    | _ => simp [nestedLoop] at hl

theorem nestedBody_shape (obj : Obj) (p s : List String) (ff : fieldFunc)
    (ih : ∀ m, sameShapeKvs m (applyFieldFunc m s ff).obj = true) :
    sameShapeKvs obj (nestedBody obj p s ff).obj = true := by
  rcases hr : NestedSlice obj p with ⟨xs, found, err⟩
  cases err with
  | some e => simp [nestedBody, hr, sameShapeKvs_refl]
  | none =>
    cases found with
    | false => simp [nestedBody, hr, sameShapeKvs_refl]
    | true =>
      obtain ⟨hfield, hp⟩ := NestedSlice_found obj p xs none hr
      cases hloop : nestedLoop (fun nestedObj => applyFieldFunc nestedObj s ff) xs [] with
      | error ex => simp [nestedBody, hr, hloop, sameShapeKvs_refl]
      | ok u =>
        obtain ⟨ys, hu, hs⟩ := nestedLoop_shape _ ih xs [] u hloop
        simp only [List.nil_append] at hu
        subst hu
        obtain ⟨obj', hset, hrep⟩ := setNestedFieldNoCopy_found obj p (.slice xs) (.slice u) hp
          hfield
        have hout : nestedBody obj p s ff = ⟨obj', .returned none⟩ := by
          simp [nestedBody, hr, hloop, SetNestedSlice, SetNestedField, hset]
        rw [hout]
        exact hrep.shape p 0 (.slice xs) none hfield (by simpa [sameShape] using hs)

theorem applyFieldFunc_shape_aux (ff : fieldFunc) :
    ∀ (n : Nat) (path : List String), path.length ≤ n →
      ∀ obj, sameShapeKvs obj (applyFieldFunc obj path ff).obj = true := by
  intro n
  induction n with
  | zero =>
    intro path hlen obj
    have : path = [] := List.length_eq_zero.mp (Nat.le_zero.mp hlen)
    subst this
    rw [applyFieldFunc_plain obj [] ff (by simp)]
    exact applyPlainFieldFunc_shape obj [] ff
  | succ n ih =>
    intro path hlen obj
    rcases path_cases path "[]" with hfree | ⟨p, r, hsplit, hp⟩
    · rw [applyFieldFunc_plain obj path ff hfree]
      exact applyPlainFieldFunc_shape obj path ff
    · subst hsplit
      cases r with
      | nil =>
        rw [applyFieldFunc_slice obj p ff hp]
        exact applySliceFieldFunc_shape obj p ff
      | cons x xs =>
        rw [applyFieldFunc_nested obj p (x :: xs) ff hp (by simp)]
        apply nestedBody_shape
        intro m
        apply ih
        simp only [List.length_append, List.length_cons] at hlen ⊢
        omega

/-- C8: structure preservation. For every document, path and `ff`, the
document after `applyFieldFunc` (however the call ends) has the shape of the
document before it: every map has the same keys in the same order, every list
the same length, every position the same kind of value, and values that are
not strings are equal; only strings can differ. -/
theorem applyFieldFunc_preserves_shape (obj : Obj) (path : List String) (ff : fieldFunc) :
    sameShape (.map obj) (.map (applyFieldFunc obj path ff).obj) = true := by
  simp only [sameShape]
  exact applyFieldFunc_shape_aux ff path.length path (le_refl _) obj

/-! ## A mutation that never applies -/

theorem sliceLoop_no_apply (ff : fieldFunc) (hff : ∀ v, (ff v).2 = (false, none)) :
    ∀ (ss valueArr : List String),
      sliceLoop ff ss valueArr false = .ok (valueArr ++ ss, false) := by
  intro ss
  induction ss with
  | nil => intro valueArr; simp [sliceLoop]
  | cons s rest ih =>
    intro valueArr
    have hs := hff s
    rcases hffs : ff s with ⟨value, set, err⟩
    rw [hffs] at hs
    simp only [Prod.mk.injEq] at hs
    obtain ⟨rfl, rfl⟩ := hs
    simp only [sliceLoop, hffs]
    simp [ih]

theorem applyPlainFieldFunc_no_apply (obj : Obj) (path : List String) (ff : fieldFunc)
    (hff : ∀ v, (ff v).2 = (false, none)) : (applyPlainFieldFunc obj path ff).obj = obj := by
  rcases hr : NestedString obj path with ⟨s, ok, err⟩
  cases err with
  | some e => simp [applyPlainFieldFunc, hr]
  | none =>
    cases ok with
    | false => simp [applyPlainFieldFunc, hr]
    | true =>
      have hs := hff s
      rcases hffs : ff s with ⟨value, set, err⟩
      rw [hffs] at hs
      simp only [Prod.mk.injEq] at hs
      obtain ⟨rfl, rfl⟩ := hs
      simp [applyPlainFieldFunc, hr, hffs]

theorem applySliceFieldFunc_no_apply (obj : Obj) (p : List String) (ff : fieldFunc)
    (hff : ∀ v, (ff v).2 = (false, none)) : (applySliceFieldFunc obj p ff).obj = obj := by
  rcases hr : NestedStringSlice obj p with ⟨ss, ok, err⟩
  cases err with
  | some e => simp [applySliceFieldFunc, hr]
  | none =>
    cases ok with
    | false => simp [applySliceFieldFunc, hr]
    | true => simp [applySliceFieldFunc, hr, sliceLoop_no_apply ff hff ss []]

theorem nestedLoop_unchanged (recurse : Obj → Outcome) (h : ∀ m, (recurse m).obj = m) :
    ∀ (xs updated u : List Value), nestedLoop recurse xs updated = .ok u → u = updated ++ xs := by
  intro xs
  induction xs with
  | nil =>
    intro updated u hl
    simp [nestedLoop] at hl
    simp [hl]
  | cons x rest ih =>
    intro updated u hl
    cases x with
    | map m =>
      have hm := h m
      rcases hrec : recurse m with ⟨o, ex⟩
      rw [hrec] at hm
      simp only at hm
      subst hm
      cases ex with
      | panicked => simp [nestedLoop, hrec] at hl
      | returned err =>
        cases err with
        | some e => simp [nestedLoop, hrec] at hl
        | none =>
          simp only [nestedLoop, hrec] at hl
          rw [ih _ _ hl]
          simp
    | _ => simp [nestedLoop] at hl

/-- When the recursive calls leave every element as it is, nested descent
leaves the document as it is: the list written back is the list read. -/
theorem nestedBody_unchanged (obj : Obj) (p s : List String) (ff : fieldFunc)
    (ih : ∀ m, (applyFieldFunc m s ff).obj = m) : (nestedBody obj p s ff).obj = obj := by
  rcases hr : NestedSlice obj p with ⟨xs, found, err⟩
  cases err with
  | some e => simp [nestedBody, hr]
  | none =>
    cases found with
    | false => simp [nestedBody, hr]
    | true =>
      obtain ⟨hfield, hp⟩ := NestedSlice_found obj p xs none hr
      cases hloop : nestedLoop (fun nestedObj => applyFieldFunc nestedObj s ff) xs [] with
      | error ex => simp [nestedBody, hr, hloop]
      | ok u =>
        have hu := nestedLoop_unchanged _ ih xs [] u hloop
        simp only [List.nil_append] at hu
        subst hu
        obtain ⟨obj', hset, hrep⟩ := setNestedFieldNoCopy_found obj p (.slice u) (.slice u) hp
          hfield
        have hout : nestedBody obj p s ff = ⟨obj', .returned none⟩ := by
          simp [nestedBody, hr, hloop, SetNestedSlice, SetNestedField, hset]
        rw [hout]
        exact hrep.same p 0 none hfield

theorem applyFieldFunc_no_apply_aux (ff : fieldFunc) (hff : ∀ v, (ff v).2 = (false, none)) :
    ∀ (n : Nat) (path : List String), path.length ≤ n →
      ∀ obj, (applyFieldFunc obj path ff).obj = obj := by
  intro n
  induction n with
  | zero =>
    intro path hlen obj
    have : path = [] := List.length_eq_zero.mp (Nat.le_zero.mp hlen)
    subst this
    rw [applyFieldFunc_plain obj [] ff (by simp)]
    exact applyPlainFieldFunc_no_apply obj [] ff hff
  | succ n ih =>
    intro path hlen obj
    rcases path_cases path "[]" with hfree | ⟨p, r, hsplit, hp⟩
    · rw [applyFieldFunc_plain obj path ff hfree]
      exact applyPlainFieldFunc_no_apply obj path ff hff
    · subst hsplit
      cases r with
      | nil =>
        rw [applyFieldFunc_slice obj p ff hp]
        exact applySliceFieldFunc_no_apply obj p ff hff
      | cons x xs =>
        rw [applyFieldFunc_nested obj p (x :: xs) ff hp (by simp)]
        apply nestedBody_unchanged
        intro m
        apply ih
        simp only [List.length_append, List.length_cons] at hlen ⊢
        omega

/-- C6: no-op mutation round trip. If `ff` returns `(_, false, nil)` on every
string, then for every document and every path (scalar, list of strings or
nested, with any number of markers) the document after `applyFieldFunc` is the
document before the call. -/
theorem applyFieldFunc_no_apply (obj : Obj) (path : List String) (ff : fieldFunc)
    (hff : ∀ v, (ff v).2 = (false, none)) : (applyFieldFunc obj path ff).obj = obj :=
  applyFieldFunc_no_apply_aux ff hff path.length path (le_refl _) obj

/-- Witness of C6 on the container scenario with the identity that never
applies. -/
theorem applyFieldFunc_no_apply_witness :
    (applyFieldFunc scenarioDoc ["spec", "containers", "[]", "image"]
      (fun v => (v, false, none))).obj = scenarioDoc :=
  applyFieldFunc_no_apply scenarioDoc ["spec", "containers", "[]", "image"]
    (fun v => (v, false, none)) (fun _ => rfl)

/-! ## Shape mismatches under a marker -/

theorem NestedStringSlice_mismatch (obj : Obj) (p : List String) (v : Value)
    (h : NestedFieldNoCopy obj p = (v, true, none))
    (hv : ∀ ss : List String, v ≠ .slice (ss.map Value.str)) :
    ∃ e, NestedStringSlice obj p = ([], false, some e) := by
  cases v with
  | slice xs =>
    cases hts : toStringSlice xs with
    | none => exact ⟨.accessor .nonStringItem p, by simp [NestedStringSlice, h, hts]⟩
    | some ss =>
      have := toStringSlice_some xs ss hts
      exact absurd (by rw [this]) (hv ss)
  | str s => exact ⟨.accessor .notSlice p, by simp [NestedStringSlice, h]⟩
  | map m => exact ⟨.accessor .notSlice p, by simp [NestedStringSlice, h]⟩
  | null => exact ⟨.accessor .notSlice p, by simp [NestedStringSlice, h]⟩
  | scalar n => exact ⟨.accessor .notSlice p, by simp [NestedStringSlice, h]⟩

/-- C11: list-of-strings shape mismatch is an error. For a path `p ++ ["[]"]`
with `p` free of the marker, where the walk along `p` ends on a value that is
present but is not a list of strings (a string, a map, `nil`, a number, or a
list with an element that is not a string, whatever its leading elements
are), `applyFieldFunc` returns a non-nil error, the read error wrapped as
"error reading object", and the document is unchanged, whatever `ff` is. -/
theorem applyFieldFunc_string_list_mismatch (obj : Obj) (p : List String) (ff : fieldFunc)
    (v : Value) (hmarker : "[]" ∉ p)
    (hwalk : NestedFieldNoCopy obj p = (v, true, none))
    (hshape : ∀ ss : List String, v ≠ .slice (ss.map Value.str)) :
    ∃ e, applyFieldFunc obj (p ++ ["[]"]) ff =
      ⟨obj, .returned (some (.errorf "error reading object: " e))⟩ := by
  obtain ⟨e, he⟩ := NestedStringSlice_mismatch obj p v hwalk hshape
  refine ⟨e, ?_⟩
  rw [applyFieldFunc_slice obj p ff hmarker]
  simp [applySliceFieldFunc, he]

/-- Witness of C11 on `{"a": ["x", {}]}` at `a.[]`: the first element is a
string that `ff` would change, the second is a sub-document. -/
theorem applyFieldFunc_string_list_mismatch_witness :
    ∃ e, applyFieldFunc [("a", .slice [.str "x", .map []])] (["a"] ++ ["[]"])
        (fun s => (s ++ "!", true, none)) =
      ⟨[("a", .slice [.str "x", .map []])],
        .returned (some (.errorf "error reading object: " e))⟩ :=
  applyFieldFunc_string_list_mismatch [("a", .slice [.str "x", .map []])] ["a"]
    (fun s => (s ++ "!", true, none)) (.slice [.str "x", .map []]) (by decide) rfl
    (by
      intro ss h
      simp only [Value.slice.injEq] at h
      cases ss with
      | nil => simp at h
      | cons s rest =>
        cases rest with
        | nil => simp at h
        | cons t rest' => simp at h)

/-- `NestedSlice` reports not found whenever the walk does not end on a
list. -/
theorem NestedSlice_not_slice (obj : Obj) (p : List String)
    (h : ∀ xs, NestedFieldNoCopy obj p ≠ (.slice xs, true, none)) :
    (NestedSlice obj p).2.1 = false := by
  rcases hr : NestedFieldNoCopy obj p with ⟨val, found, err⟩
  cases found with
  | false => simp [NestedSlice, hr]
  | true =>
    have he : err = none := nestedFieldLoop_found_err p p (.map obj) 0 val err hr
    subst he
    cases val with
    | slice xs => exact absurd hr (h xs)
    | _ => simp [NestedSlice, hr]

/-- Nested descent does nothing when `NestedSlice` does not find a list. -/
theorem nestedBody_not_found (obj : Obj) (p s : List String) (ff : fieldFunc)
    (h : (NestedSlice obj p).2.1 = false) : nestedBody obj p s ff = ⟨obj, .returned none⟩ := by
  rcases hr : NestedSlice obj p with ⟨xs, found, err⟩
  rw [hr] at h
  simp only at h
  subst h
  simp [nestedBody, hr]

/-- C12: nested prefix mismatch is a no-op. For a path `pre ++ "[]" :: suffix`
with `pre` free of the marker and `suffix` not empty, if the walk along `pre`
does not end on a list (the prefix is absent, a segment of it is not a map, or
its value is a string, a map or any other value that is not a list; the empty
prefix, which addresses the root map, included), `applyFieldFunc` returns
without an error and the document is unchanged. -/
theorem applyFieldFunc_nested_prefix_mismatch (obj : Obj) (pre suffix : List String)
    (ff : fieldFunc) (hmarker : "[]" ∉ pre) (hsuffix : suffix ≠ [])
    (hnot : ∀ xs, NestedFieldNoCopy obj pre ≠ (.slice xs, true, none)) :
    applyFieldFunc obj (pre ++ "[]" :: suffix) ff = ⟨obj, .returned none⟩ := by
  rw [applyFieldFunc_nested obj pre suffix ff hmarker hsuffix]
  exact nestedBody_not_found obj pre suffix ff (NestedSlice_not_slice obj pre hnot)

/-- Witness of C12 on `{"a": "x"}` with the empty prefix: the path `[].b`
addresses the root map, which is not a list. -/
theorem applyFieldFunc_nested_prefix_mismatch_witness :
    applyFieldFunc [("a", .str "x")] ([] ++ "[]" :: ["b"]) (fun s => (s ++ "!", true, none)) =
      ⟨[("a", .str "x")], .returned none⟩ :=
  applyFieldFunc_nested_prefix_mismatch [("a", .str "x")] [] ["b"]
    (fun s => (s ++ "!", true, none)) (by decide) (by simp)
    (by
      intro xs h
      rw [NestedFieldNoCopy_root] at h
      simp at h)

/-- C13, as amended: for a path in which the marker precedes the final
segment, if the value at the prefix is present but is not a list (a map, a
string, any other value), `applyFieldFunc` does not return an error: it
returns success and leaves the document unchanged. -/
theorem applyFieldFunc_nested_wrong_shape (obj : Obj) (pre suffix : List String)
    (ff : fieldFunc) (v : Value) (hmarker : "[]" ∉ pre) (hsuffix : suffix ≠ [])
    (hwalk : NestedFieldNoCopy obj pre = (v, true, none)) (hshape : ∀ xs, v ≠ .slice xs) :
    applyFieldFunc obj (pre ++ "[]" :: suffix) ff = ⟨obj, .returned none⟩ := by
  rw [applyFieldFunc_nested obj pre suffix ff hmarker hsuffix]
  apply nestedBody_not_found
  apply NestedSlice_not_slice
  intro xs h
  rw [hwalk] at h
  simp only [Prod.mk.injEq, and_true] at h
  exact hshape xs h

/-- Witness of C13 as amended on `{"a": {"b": "x"}}` at `a.[].b`: a map is found
where a list is expected. -/
theorem applyFieldFunc_nested_wrong_shape_witness :
    applyFieldFunc [("a", .map [("b", .str "x")])] (["a"] ++ "[]" :: ["b"])
        (fun s => (s ++ "!", true, none)) =
      ⟨[("a", .map [("b", .str "x")])], .returned none⟩ :=
  applyFieldFunc_nested_wrong_shape [("a", .map [("b", .str "x")])] ["a"] ["b"]
    (fun s => (s ++ "!", true, none)) (.map [("b", .str "x")]) (by decide) (by simp) rfl
    (by simp)

/-- C13 as stated fails: on `{"a": {"b": "x"}}` at `a.[].b`, where a map is found
where a list is expected, the call returns no error. -/
theorem applyFieldFunc_nested_wrong_shape_no_error :
    (applyFieldFunc [("a", .map [("b", .str "x")])] ["a", "[]", "b"]
      (fun s => (s ++ "!", true, none))).exit = .returned none := by
  rw [show (["a", "[]", "b"] : List String) = ["a"] ++ "[]" :: ["b"] from rfl,
    applyFieldFunc_nested _ _ _ _ (by decide) (by simp)]
  rw [nestedBody_not_found _ _ _ _ (by rfl)]

/-! ## Failures during nested descent -/

/-- The loop stops at the first element whose recursive call does not succeed,
whatever follows it in the list. -/
theorem nestedLoop_stop (recurse : Obj → Outcome) (e : Obj) (b : List Value)
    (hfail : (recurse e).exit ≠ .returned none) :
    ∀ (a : List Obj) (updated : List Value),
      (∀ x ∈ a, (recurse x).exit = .returned none) →
      nestedLoop recurse (a.map Value.map ++ .map e :: b) updated = .error (recurse e).exit := by
  intro a
  induction a with
  | nil =>
    intro updated _
    rcases hrec : recurse e with ⟨o, ex⟩
    rw [hrec] at hfail
    cases ex with
    | panicked => simp [nestedLoop, hrec]
    | returned err =>
      cases err with
      | none => exact absurd rfl hfail
      | some err => simp [nestedLoop, hrec]
  | cons x xs ih =>
    intro updated h
    have hx : (recurse x).exit = .returned none := h x (by simp)
    rcases hrec : recurse x with ⟨o, ex⟩
    rw [hrec] at hx
    simp only at hx
    subst hx
    simp only [List.map_cons, List.cons_append, nestedLoop, hrec]
    exact ih _ (fun y hy => h y (by simp [hy]))

/-- The loop panics at the first element that is not a map, when the calls on
the elements before it succeed. -/
theorem nestedLoop_not_map (recurse : Obj → Outcome) (x : Value) (b : List Value)
    (hx : ∀ m, x ≠ .map m) :
    ∀ (a : List Obj) (updated : List Value),
      (∀ e ∈ a, (recurse e).exit = .returned none) →
      nestedLoop recurse (a.map Value.map ++ x :: b) updated = .error .panicked := by
  intro a
  induction a with
  | nil =>
    intro updated _
    cases x with
    | map m => exact absurd rfl (hx m)
    | _ => simp [nestedLoop]
  | cons e es ih =>
    intro updated h
    have he : (recurse e).exit = .returned none := h e (by simp)
    rcases hrec : recurse e with ⟨o, ex⟩
    rw [hrec] at he
    simp only at he
    subst he
    simp only [List.map_cons, List.cons_append, nestedLoop, hrec]
    exact ih _ (fun y hy => h y (by simp [hy]))

/-- C16: a list element that is not a document fails the call. For a path
`pre ++ "[]" :: suffix` with `pre` free of the marker and `suffix` not empty,
where `NestedSlice` finds at `pre` a list whose first elements are the maps
`a`, on which the recursive calls succeed, followed by a value `x` that is not
a map: `applyFieldFunc` does not return; it panics at `x` (the unchecked type
assertion), and the list is not written back: the document is unchanged. -/
theorem applyFieldFunc_nested_not_map (obj : Obj) (pre suffix : List String) (ff : fieldFunc)
    (a : List Obj) (x : Value) (b : List Value) (hmarker : "[]" ∉ pre) (hsuffix : suffix ≠ [])
    (hread : NestedSlice obj pre = (a.map Value.map ++ x :: b, true, none))
    (hx : ∀ m, x ≠ .map m)
    (hearlier : ∀ e ∈ a, (applyFieldFunc e suffix ff).exit = .returned none) :
    applyFieldFunc obj (pre ++ "[]" :: suffix) ff = ⟨obj, .panicked⟩ := by
  rw [applyFieldFunc_nested obj pre suffix ff hmarker hsuffix]
  have hloop := nestedLoop_not_map (fun nestedObj => applyFieldFunc nestedObj suffix ff) x b hx a []
    hearlier
  simp only [nestedBody, hread, hloop]
  simp

/-- Witness of C16 on `{"a": [{"b": "x"}, "s"]}` at `a.[].b`: the second element
is a string. -/
theorem applyFieldFunc_nested_not_map_witness :
    applyFieldFunc [("a", .slice [.map [("b", .str "x")], .str "s"])] (["a"] ++ "[]" :: ["b"])
        (fun s => (s ++ "!", true, none)) =
      ⟨[("a", .slice [.map [("b", .str "x")], .str "s"])], .panicked⟩ :=
  applyFieldFunc_nested_not_map [("a", .slice [.map [("b", .str "x")], .str "s"])] ["a"] ["b"]
    (fun s => (s ++ "!", true, none)) [[("b", .str "x")]] (.str "s") [] (by decide) (by simp)
    rfl (by simp) (by
      intro e he
      simp only [List.mem_singleton] at he
      subst he
      rw [applyFieldFunc_plain _ ["b"] _ (by decide)]
      rfl)

/-! ## Atomicity -/

theorem applyPlainFieldFunc_fail_unchanged (obj : Obj) (path : List String) (ff : fieldFunc)
    (h : (applyPlainFieldFunc obj path ff).exit ≠ .returned none) :
    (applyPlainFieldFunc obj path ff).obj = obj := by
  rcases hr : NestedString obj path with ⟨s, ok, err⟩
  cases err with
  | some e => simp [applyPlainFieldFunc, hr]
  | none =>
    cases ok with
    | false => simp [applyPlainFieldFunc, hr]
    | true =>
      obtain ⟨hfield, hp⟩ := NestedString_found obj path s none hr
      rcases hff : ff s with ⟨value, set, err⟩
      cases err with
      | some e => simp [applyPlainFieldFunc, hr, hff]
      | none =>
        cases set with
        | false => simp [applyPlainFieldFunc, hr, hff]
        | true =>
          obtain ⟨obj', hset, _⟩ :=
            setNestedFieldNoCopy_found obj path (.str s) (.str value) hp hfield
          have hout : applyPlainFieldFunc obj path ff = ⟨obj', .returned none⟩ := by
            simp [applyPlainFieldFunc, hr, hff, SetNestedField, hset]
          rw [hout] at h
          exact absurd rfl h

theorem applySliceFieldFunc_fail_unchanged (obj : Obj) (p : List String) (ff : fieldFunc)
    (h : (applySliceFieldFunc obj p ff).exit ≠ .returned none) :
    (applySliceFieldFunc obj p ff).obj = obj := by
  rcases hr : NestedStringSlice obj p with ⟨ss, ok, err⟩
  cases err with
  | some e => simp [applySliceFieldFunc, hr]
  | none =>
    cases ok with
    | false => simp [applySliceFieldFunc, hr]
    | true =>
      obtain ⟨hfield, hp⟩ := NestedStringSlice_found obj p ss none hr
      cases hloop : sliceLoop ff ss [] false with
      | error e => simp [applySliceFieldFunc, hr, hloop]
      | ok res =>
        obtain ⟨arr, setAny⟩ := res
        cases setAny with
        | false => simp [applySliceFieldFunc, hr, hloop]
        | true =>
          obtain ⟨obj', hset, _⟩ := setNestedFieldNoCopy_found obj p
            (.slice (ss.map Value.str)) (.slice (arr.map Value.str)) hp hfield
          have hout : applySliceFieldFunc obj p ff = ⟨obj', .returned none⟩ := by
            simp [applySliceFieldFunc, hr, hloop, SetNestedStringSlice, hset]
          rw [hout] at h
          exact absurd rfl h

theorem nestedBody_fail_unchanged (obj : Obj) (p s : List String) (ff : fieldFunc)
    (h : (nestedBody obj p s ff).exit ≠ .returned none) : (nestedBody obj p s ff).obj = obj := by
  rcases hr : NestedSlice obj p with ⟨xs, found, err⟩
  cases err with
  | some e => simp [nestedBody, hr]
  | none =>
    cases found with
    | false => simp [nestedBody, hr]
    | true =>
      obtain ⟨hfield, hp⟩ := NestedSlice_found obj p xs none hr
      cases hloop : nestedLoop (fun nestedObj => applyFieldFunc nestedObj s ff) xs [] with
      | error ex => simp [nestedBody, hr, hloop]
      | ok u =>
        obtain ⟨obj', hset, _⟩ := setNestedFieldNoCopy_found obj p (.slice xs) (.slice u) hp
          hfield
        have hout : nestedBody obj p s ff = ⟨obj', .returned none⟩ := by
          simp [nestedBody, hr, hloop, SetNestedSlice, SetNestedField, hset]
        rw [hout] at h
        exact absurd rfl h

/-- A call that does not return success leaves the document as it was. -/
theorem applyFieldFunc_fail_unchanged (obj : Obj) (path : List String) (ff : fieldFunc)
    (h : (applyFieldFunc obj path ff).exit ≠ .returned none) :
    (applyFieldFunc obj path ff).obj = obj := by
  rcases path_cases path "[]" with hfree | ⟨p, r, hsplit, hp⟩
  · rw [applyFieldFunc_plain obj path ff hfree] at h ⊢
    exact applyPlainFieldFunc_fail_unchanged obj path ff h
  · subst hsplit
    cases r with
    | nil =>
      rw [applyFieldFunc_slice obj p ff hp] at h ⊢
      exact applySliceFieldFunc_fail_unchanged obj p ff h
    | cons x xs =>
      rw [applyFieldFunc_nested obj p (x :: xs) ff hp (by simp)] at h ⊢
      exact nestedBody_fail_unchanged obj p (x :: xs) ff h

/-- C18: atomicity on error. For every document, path and `ff`, whenever
`applyFieldFunc` returns a non-nil error (a read error or an error of `ff`, at
any nesting depth), the document is the document before the call. -/
theorem applyFieldFunc_error_atomic (obj : Obj) (path : List String) (ff : fieldFunc)
    (e : GoError) (herr : (applyFieldFunc obj path ff).exit = .returned (some e)) :
    (applyFieldFunc obj path ff).obj = obj := by
  apply applyFieldFunc_fail_unchanged
  rw [herr]
  simp

/-- The failing scenario, evaluated: `ff` applies a new value on the first
element and fails on the second; the error is returned and the document is the
original one. -/
theorem scenario_rollback_evaluated :
    applyFieldFunc rollbackDoc ["a", "[]", "b"] rollbackFunc =
      ⟨rollbackDoc, .returned (some (.custom "boom"))⟩ := by
  rw [show (["a", "[]", "b"] : List String) = ["a"] ++ "[]" :: ["b"] from rfl,
    applyFieldFunc_nested _ _ _ _ (by decide) (by simp)]
  simp [nestedBody, rollbackDoc, rollbackFunc, NestedSlice, NestedFieldNoCopy, nestedFieldLoop,
    mapGet, nestedLoop, applyFieldFunc_plain _ ["b"] _ (by decide), applyPlainFieldFunc,
    NestedString, SetNestedField, setNestedFieldNoCopy, setNestedLoop, mapSet]

/-- Witness of C18 on the failing scenario. -/
theorem applyFieldFunc_error_atomic_witness :
    (applyFieldFunc rollbackDoc ["a", "[]", "b"] rollbackFunc).obj = rollbackDoc :=
  applyFieldFunc_error_atomic rollbackDoc ["a", "[]", "b"] rollbackFunc (.custom "boom")
    (by rw [scenario_rollback_evaluated])

theorem applyFieldFunc_field_ok (e : Obj) (b : String) (ff : fieldFunc) (s : String)
    (hb : b ≠ "[]") (hs : mapGet e b = some (.str s)) (hff : (ff s).2.2 = none) :
    (applyFieldFunc e [b] ff).exit = .returned none := by
  have hfree : "[]" ∉ [b] := by
    simp only [List.mem_singleton]
    exact fun h => hb h.symm
  rw [applyFieldFunc_plain e [b] ff hfree]
  have hread : NestedString e [b] = (s, true, none) := by
    simp [NestedString, NestedFieldNoCopy, nestedFieldLoop, hs]
  rcases hffs : ff s with ⟨value, set, err⟩
  rw [hffs] at hff
  simp only at hff
  subst hff
  cases set with
  | false => simp [applyPlainFieldFunc, hread, hffs]
  | true =>
    simp [applyPlainFieldFunc, hread, hffs, SetNestedField, setNestedFieldNoCopy, setNestedLoop]

theorem applyFieldFunc_field_err (e : Obj) (b : String) (ff : fieldFunc) (s : String)
    (err : GoError) (hb : b ≠ "[]") (hs : mapGet e b = some (.str s))
    (hff : (ff s).2.2 = some err) :
    (applyFieldFunc e [b] ff).exit = .returned (some err) := by
  have hfree : "[]" ∉ [b] := by
    simp only [List.mem_singleton]
    exact fun h => hb h.symm
  rw [applyFieldFunc_plain e [b] ff hfree]
  have hread : NestedString e [b] = (s, true, none) := by
    simp [NestedString, NestedFieldNoCopy, nestedFieldLoop, hs]
  rcases hffs : ff s with ⟨value, set, err'⟩
  rw [hffs] at hff
  simp only at hff
  subst hff
  simp [applyPlainFieldFunc, hread, hffs]

/-- C15, as amended: for a nested path `pre ++ ["[]", b]` over a list of
sub-documents that all hold a string at `b`, if `ff` does not fail on the
elements `a` (it may apply a new value on them) and returns an error on the
next element, `applyFieldFunc` returns that error and the document is left
unchanged: the elements are processed on the copy that `NestedSlice` returns
and nothing is written back, so the earlier elements keep their old `b`. -/
theorem applyFieldFunc_nested_error_unchanged (obj : Obj) (pre : List String) (b : String)
    (ff : fieldFunc) (a : List Obj) (el : Obj) (rest : List Obj) (s : String) (e : GoError)
    (hmarker : "[]" ∉ pre) (hb : b ≠ "[]")
    (hread : NestedSlice obj pre = ((a ++ el :: rest).map Value.map, true, none))
    (hearlier : ∀ x ∈ a, ∃ t, mapGet x b = some (.str t) ∧ (ff t).2.2 = none)
    (hel : mapGet el b = some (.str s)) (herr : (ff s).2.2 = some e) :
    applyFieldFunc obj (pre ++ ["[]", b]) ff = ⟨obj, .returned (some e)⟩ := by
  rw [applyFieldFunc_nested obj pre [b] ff hmarker (by simp)]
  have hfail := applyFieldFunc_field_err el b ff s e hb hel herr
  have := nestedBody_fail obj pre [b] ff a el rest hread
    (fun x hx => by
      obtain ⟨t, ht, hft⟩ := hearlier x hx
      exact applyFieldFunc_field_ok x b ff t hb ht hft)
    (by rw [hfail]; simp)
  rw [this, hfail]

/-- Witness of C15 as amended on the failing scenario. -/
theorem applyFieldFunc_nested_error_unchanged_witness :
    applyFieldFunc rollbackDoc (["a"] ++ ["[]", "b"]) rollbackFunc =
      ⟨rollbackDoc, .returned (some (.custom "boom"))⟩ :=
  applyFieldFunc_nested_error_unchanged rollbackDoc ["a"] "b" rollbackFunc [[("b", .str "x")]]
    [("b", .str "bad")] [] "bad" (.custom "boom") (by decide) (by decide) rfl
    (by
      intro x hx
      simp only [List.mem_singleton] at hx
      subst hx
      exact ⟨"x", rfl, rfl⟩)
    rfl rfl

/-- C15 as stated fails: on the failing scenario `ff` applies `"x!"` on the first
element and fails on the second; the error is returned, but the document is
not left with `"x!"` at the first element's `b`. -/
theorem applyFieldFunc_nested_no_partial_mutation :
    (applyFieldFunc rollbackDoc ["a", "[]", "b"] rollbackFunc).exit =
        .returned (some (.custom "boom")) ∧
      (applyFieldFunc rollbackDoc ["a", "[]", "b"] rollbackFunc).obj ≠
        [("a", .slice [.map [("b", .str "x!")], .map [("b", .str "bad")]])] := by
  rw [scenario_rollback_evaluated]
  refine ⟨rfl, ?_⟩
  simp [rollbackDoc]

/-! ## Errors of the mutation -/

/-- C14: a mutation failure is surfaced verbatim. For every document, path
(scalar, list of strings or nested, at any depth) and `ff`, if the traversal
reaches a located string on which `ff` returns the error `e`, no earlier step
having failed (`FailsWith`), then `applyFieldFunc` returns exactly `e`, not
wrapped, and stops there: nothing is written, the document is unchanged. In
particular `applyFieldTemplate` returns the render error unchanged. -/
theorem applyFieldFunc_mutation_error (obj : Obj) (path : List String) (ff : fieldFunc)
    (e : GoError) (h : FailsWith ff obj path e) :
    applyFieldFunc obj path ff = ⟨obj, .returned (some e)⟩ ∧
    (∀ executeTemplate values, ff = templateFunc executeTemplate values →
      applyFieldTemplate executeTemplate obj path values = ⟨obj, .returned (some e)⟩) := by
  have main : applyFieldFunc obj path ff = ⟨obj, .returned (some e)⟩ := by
    induction h with
    | scalar obj path V e hmarker hread herr =>
      rw [applyFieldFunc_plain obj path ff hmarker]
      rcases hff : ff V with ⟨value, set, err⟩
      rw [hff] at herr
      simp only at herr
      subst herr
      simp [applyPlainFieldFunc, hread, hff]
    | strings obj p a s b e hmarker hread hearlier herr =>
      rw [applyFieldFunc_slice obj p ff hmarker]
      have hloop := sliceLoop_error ff s b e herr a [] false hearlier
      simp [applySliceFieldFunc, hread, hloop]
    | nested obj p suffix a el b e hmarker hsuffix hread hearlier _ ih =>
      rw [applyFieldFunc_nested obj p suffix ff hmarker hsuffix]
      have hfail : (applyFieldFunc el suffix ff).exit ≠ .returned none := by
        rw [ih]
        simp
      have hloop := nestedLoop_stop (fun nestedObj => applyFieldFunc nestedObj suffix ff) el b
        hfail a [] hearlier
      simp only [nestedBody, hread, hloop, ih]
      simp
  refine ⟨main, ?_⟩
  intro executeTemplate values hff
  subst hff
  exact main

/-- Witness of C14: the renderer fails on the template at `a.b`, and
`applyFieldTemplate` returns its error as it is. -/
theorem applyFieldFunc_mutation_error_witness :
    applyFieldFunc templateDoc ["a", "b"] (templateFunc failingRender []) =
        ⟨templateDoc, .returned (some (.custom "render"))⟩ ∧
    (∀ executeTemplate values, templateFunc failingRender [] = templateFunc executeTemplate values →
      applyFieldTemplate executeTemplate templateDoc ["a", "b"] values =
        ⟨templateDoc, .returned (some (.custom "render"))⟩) :=
  applyFieldFunc_mutation_error templateDoc ["a", "b"] (templateFunc failingRender [])
    (.custom "render")
    (FailsWith.scalar templateDoc ["a", "b"] "t" (.custom "render") (by decide) rfl rfl)

/-- The render error of the witness, evaluated through `applyFieldTemplate`. -/
theorem scenario_template_error_evaluated :
    applyFieldTemplate failingRender templateDoc ["a", "b"] [] =
      ⟨templateDoc, .returned (some (.custom "render"))⟩ := by
  show applyFieldFunc templateDoc ["a", "b"] (templateFunc failingRender []) = _
  rw [applyFieldFunc_plain _ ["a", "b"] _ (by decide)]
  rfl

/-! ## Where errors come from -/

theorem sliceLoop_error_source (ff : fieldFunc) (e : GoError) :
    ∀ (ss valueArr : List String) (setAny : Bool),
      sliceLoop ff ss valueArr setAny = .error e → ∃ s, (ff s).2.2 = some e := by
  intro ss
  induction ss with
  | nil => intro valueArr setAny h; simp [sliceLoop] at h
  | cons s rest ih =>
    intro valueArr setAny h
    rcases hff : ff s with ⟨value, set, err⟩
    cases err with
    | some e' =>
      simp [sliceLoop, hff] at h
      exact ⟨s, by rw [hff, h]⟩
    | none =>
      simp only [sliceLoop, hff] at h
      exact ih _ _ h

theorem nestedLoop_error_source (recurse : Obj → Outcome) (e : GoError) :
    ∀ (xs updated : List Value),
      nestedLoop recurse xs updated = .error (.returned (some e)) →
      ∃ m, (recurse m).exit = .returned (some e) := by
  intro xs
  induction xs with
  | nil => intro updated h; simp [nestedLoop] at h
  | cons x rest ih =>
    intro updated h
    cases x with
    | map m =>
      rcases hrec : recurse m with ⟨o, ex⟩
      cases ex with
      | panicked => simp [nestedLoop, hrec] at h
      | returned err =>
        cases err with
        | some e' =>
          simp [nestedLoop, hrec] at h
          exact ⟨m, by rw [hrec, h]⟩
        | none =>
          simp only [nestedLoop, hrec] at h
          exact ih _ h
    | _ => simp [nestedLoop] at h

theorem applyPlainFieldFunc_error_source (obj : Obj) (path : List String) (ff : fieldFunc)
    (e : GoError) (h : (applyPlainFieldFunc obj path ff).exit = .returned (some e)) :
    (∃ s, (ff s).2.2 = some e) ∨ ∃ a, e = .errorf "error reading object: " a := by
  rcases hr : NestedString obj path with ⟨s, ok, err⟩
  cases err with
  | some e' =>
    simp [applyPlainFieldFunc, hr] at h
    exact Or.inr ⟨e', h.symm⟩
  | none =>
    cases ok with
    | false => simp [applyPlainFieldFunc, hr] at h
    | true =>
      obtain ⟨hfield, hp⟩ := NestedString_found obj path s none hr
      rcases hff : ff s with ⟨value, set, err⟩
      cases err with
      | some e' =>
        simp [applyPlainFieldFunc, hr, hff] at h
        exact Or.inl ⟨s, by rw [hff, h]⟩
      | none =>
        cases set with
        | false => simp [applyPlainFieldFunc, hr, hff] at h
        | true =>
          obtain ⟨obj', hset, _⟩ :=
            setNestedFieldNoCopy_found obj path (.str s) (.str value) hp hfield
          simp [applyPlainFieldFunc, hr, hff, SetNestedField, hset] at h

theorem applySliceFieldFunc_error_source (obj : Obj) (p : List String) (ff : fieldFunc)
    (e : GoError) (h : (applySliceFieldFunc obj p ff).exit = .returned (some e)) :
    (∃ s, (ff s).2.2 = some e) ∨ ∃ a, e = .errorf "error reading object: " a := by
  rcases hr : NestedStringSlice obj p with ⟨ss, ok, err⟩
  cases err with
  | some e' =>
    simp [applySliceFieldFunc, hr] at h
    exact Or.inr ⟨e', h.symm⟩
  | none =>
    cases ok with
    | false => simp [applySliceFieldFunc, hr] at h
    | true =>
      obtain ⟨hfield, hp⟩ := NestedStringSlice_found obj p ss none hr
      cases hloop : sliceLoop ff ss [] false with
      | error e' =>
        simp [applySliceFieldFunc, hr, hloop] at h
        subst h
        exact Or.inl (sliceLoop_error_source ff e' ss [] false hloop)
      | ok res =>
        obtain ⟨arr, setAny⟩ := res
        cases setAny with
        | false => simp [applySliceFieldFunc, hr, hloop] at h
        | true =>
          obtain ⟨obj', hset, _⟩ := setNestedFieldNoCopy_found obj p
            (.slice (ss.map Value.str)) (.slice (arr.map Value.str)) hp hfield
          simp [applySliceFieldFunc, hr, hloop, SetNestedStringSlice, hset] at h

theorem nestedBody_error_source (obj : Obj) (p s : List String) (ff : fieldFunc) (e : GoError)
    (ih : ∀ m, (applyFieldFunc m s ff).exit = .returned (some e) →
      (∃ t, (ff t).2.2 = some e) ∨ ∃ a, e = .errorf "error reading object: " a)
    (h : (nestedBody obj p s ff).exit = .returned (some e)) :
    (∃ t, (ff t).2.2 = some e) ∨ ∃ a, e = .errorf "error reading object: " a := by
  rcases hr : NestedSlice obj p with ⟨xs, found, err⟩
  cases err with
  | some e' => simp [nestedBody, hr] at h
  | none =>
    cases found with
    | false => simp [nestedBody, hr] at h
    | true =>
      obtain ⟨hfield, hp⟩ := NestedSlice_found obj p xs none hr
      cases hloop : nestedLoop (fun nestedObj => applyFieldFunc nestedObj s ff) xs [] with
      | error ex =>
        simp [nestedBody, hr, hloop] at h
        subst h
        obtain ⟨m, hm⟩ := nestedLoop_error_source _ e xs [] hloop
        exact ih m hm
      | ok u =>
        obtain ⟨obj', hset, _⟩ := setNestedFieldNoCopy_found obj p (.slice xs) (.slice u) hp
          hfield
        simp [nestedBody, hr, hloop, SetNestedSlice, SetNestedField, hset] at h

theorem applyFieldFunc_error_source_aux (ff : fieldFunc) (e : GoError) :
    ∀ (n : Nat) (path : List String), path.length ≤ n →
      ∀ obj, (applyFieldFunc obj path ff).exit = .returned (some e) →
        (∃ s, (ff s).2.2 = some e) ∨ ∃ a, e = .errorf "error reading object: " a := by
  intro n
  induction n with
  | zero =>
    intro path hlen obj h
    have : path = [] := List.length_eq_zero.mp (Nat.le_zero.mp hlen)
    subst this
    rw [applyFieldFunc_plain obj [] ff (by simp)] at h
    exact applyPlainFieldFunc_error_source obj [] ff e h
  | succ n ih =>
    intro path hlen obj h
    rcases path_cases path "[]" with hfree | ⟨p, r, hsplit, hp⟩
    · rw [applyFieldFunc_plain obj path ff hfree] at h
      exact applyPlainFieldFunc_error_source obj path ff e h
    · subst hsplit
      cases r with
      | nil =>
        rw [applyFieldFunc_slice obj p ff hp] at h
        exact applySliceFieldFunc_error_source obj p ff e h
      | cons x xs =>
        rw [applyFieldFunc_nested obj p (x :: xs) ff hp (by simp)] at h
        refine nestedBody_error_source obj p (x :: xs) ff e ?_ h
        intro m hm
        refine ih (x :: xs) ?_ m hm
        simp only [List.length_append, List.length_cons] at hlen ⊢
        omega

/-- C17: writes after a successful read never fail. For every document, path
and `ff`: an error returned by `applyFieldFunc` is an error that `ff`
returned on some string or a read error wrapped as "error reading object", so
it is never an "error updating object" error nor an error of the nested
write-back; and at a path where the read of a resolver succeeded (a string, a
list of strings, a list), the matching write returns without an error and
without a panic, whatever value is written. -/
theorem applyFieldFunc_writes_never_fail (obj : Obj) (path : List String) (ff : fieldFunc) :
    (∀ e, (applyFieldFunc obj path ff).exit = .returned (some e) →
      (∃ s, (ff s).2.2 = some e) ∨ ∃ a, e = .errorf "error reading object: " a) ∧
    (∀ V value, NestedString obj path = (V, true, none) →
      ∃ obj', SetNestedField obj (.str value) path = ⟨obj', .returned none⟩) ∧
    (∀ ss valueArr, NestedStringSlice obj path = (ss, true, none) →
      ∃ obj', SetNestedStringSlice obj valueArr path = ⟨obj', .returned none⟩) ∧
    (∀ xs updated, NestedSlice obj path = (xs, true, none) →
      ∃ obj', SetNestedSlice obj updated path = ⟨obj', .returned none⟩) := by
  refine ⟨fun e h => applyFieldFunc_error_source_aux ff e path.length path (le_refl _) obj h,
    ?_, ?_, ?_⟩
  · intro V value h
    obtain ⟨hfield, hp⟩ := NestedString_found obj path V none h
    obtain ⟨obj', hset, _⟩ := setNestedFieldNoCopy_found obj path (.str V) (.str value) hp hfield
    exact ⟨obj', hset⟩
  · intro ss valueArr h
    obtain ⟨hfield, hp⟩ := NestedStringSlice_found obj path ss none h
    obtain ⟨obj', hset, _⟩ := setNestedFieldNoCopy_found obj path _
      (.slice (valueArr.map Value.str)) hp hfield
    exact ⟨obj', hset⟩
  · intro xs updated h
    obtain ⟨hfield, hp⟩ := NestedSlice_found obj path xs none h
    obtain ⟨obj', hset, _⟩ := setNestedFieldNoCopy_found obj path _ (.slice updated) hp hfield
    exact ⟨obj', hset⟩

/-- Witness of C17 on the failing scenario: the error returned is the one
`ff` returned, and a write of a list at `a`, where the read succeeds, returns
without an error. -/
theorem applyFieldFunc_writes_never_fail_witness :
    ((∃ s, (rollbackFunc s).2.2 = some (.custom "boom")) ∨
      ∃ a, GoError.custom "boom" = .errorf "error reading object: " a) ∧
    ∃ obj', SetNestedSlice rollbackDoc [] ["a"] = ⟨obj', .returned none⟩ :=
  ⟨(applyFieldFunc_writes_never_fail rollbackDoc ["a", "[]", "b"] rollbackFunc).1 (.custom "boom")
      (by rw [scenario_rollback_evaluated]),
    (applyFieldFunc_writes_never_fail rollbackDoc ["a"] rollbackFunc).2.2.2
      [.map [("b", .str "x")], .map [("b", .str "bad")]] [] rfl⟩

/-! ## Writing back what was read -/

theorem applyPlainFieldFunc_write_same (obj : Obj) (path : List String) (ff : fieldFunc)
    (hff : ∀ v, ff v = (v, true, none)) : (applyPlainFieldFunc obj path ff).obj = obj := by
  rcases hr : NestedString obj path with ⟨s, ok, err⟩
  cases err with
  | some e => simp [applyPlainFieldFunc, hr]
  | none =>
    cases ok with
    | false => simp [applyPlainFieldFunc, hr]
    | true =>
      obtain ⟨hfield, hp⟩ := NestedString_found obj path s none hr
      obtain ⟨obj', hset, hrep⟩ := setNestedFieldNoCopy_found obj path (.str s) (.str s) hp hfield
      have hout : applyPlainFieldFunc obj path ff = ⟨obj', .returned none⟩ := by
        simp [applyPlainFieldFunc, hr, hff s, SetNestedField, hset]
      rw [hout]
      exact hrep.same path 0 none hfield

theorem applySliceFieldFunc_write_same (obj : Obj) (p : List String) (ff : fieldFunc)
    (hff : ∀ v, ff v = (v, true, none)) : (applySliceFieldFunc obj p ff).obj = obj := by
  rcases hr : NestedStringSlice obj p with ⟨ss, ok, err⟩
  cases err with
  | some e => simp [applySliceFieldFunc, hr]
  | none =>
    cases ok with
    | false => simp [applySliceFieldFunc, hr]
    | true =>
      obtain ⟨hfield, hp⟩ := NestedStringSlice_found obj p ss none hr
      have hloop := sliceLoop_ok ff ss [] false (fun s _ => by rw [hff s])
      have hmap : ss.map (newElem ff) = ss := by
        have : newElem ff = id := by
          funext s
          simp [newElem, hff s]
        rw [this, List.map_id]
      rw [hmap] at hloop
      simp only [List.nil_append, Bool.false_or] at hloop
      cases hany : ss.any (fun s => (ff s).2.1) with
      | false => simp [applySliceFieldFunc, hr, hloop, hany]
      | true =>
        obtain ⟨obj', hset, hrep⟩ := setNestedFieldNoCopy_found obj p
          (.slice (ss.map Value.str)) (.slice (ss.map Value.str)) hp hfield
        have hout : applySliceFieldFunc obj p ff = ⟨obj', .returned none⟩ := by
          simp [applySliceFieldFunc, hr, hloop, hany, SetNestedStringSlice, hset]
        rw [hout]
        exact hrep.same p 0 none hfield

theorem applyFieldFunc_write_same_aux (ff : fieldFunc) (hff : ∀ v, ff v = (v, true, none)) :
    ∀ (n : Nat) (path : List String), path.length ≤ n →
      ∀ obj, (applyFieldFunc obj path ff).obj = obj := by
  intro n
  induction n with
  | zero =>
    intro path hlen obj
    have : path = [] := List.length_eq_zero.mp (Nat.le_zero.mp hlen)
    subst this
    rw [applyFieldFunc_plain obj [] ff (by simp)]
    exact applyPlainFieldFunc_write_same obj [] ff hff
  | succ n ih =>
    intro path hlen obj
    rcases path_cases path "[]" with hfree | ⟨p, r, hsplit, hp⟩
    · rw [applyFieldFunc_plain obj path ff hfree]
      exact applyPlainFieldFunc_write_same obj path ff hff
    · subst hsplit
      cases r with
      | nil =>
        rw [applyFieldFunc_slice obj p ff hp]
        exact applySliceFieldFunc_write_same obj p ff hff
      | cons x xs =>
        rw [applyFieldFunc_nested obj p (x :: xs) ff hp (by simp)]
        apply nestedBody_unchanged
        intro m
        apply ih
        simp only [List.length_append, List.length_cons] at hlen ⊢
        omega

/-- A sub-document that lacks the first key of the path is left alone, and
the call on it succeeds. -/
theorem applyFieldFunc_lacks_key (e : Obj) (k : String) (r : List String) (ff : fieldFunc)
    (hk : k ≠ "[]") (habsent : mapGet e k = none) :
    applyFieldFunc e (k :: r) ff = ⟨e, .returned none⟩ := by
  have hwalk := NestedFieldNoCopy_root e
  rcases path_cases r "[]" with hr | ⟨r1, r2, hr, hr1⟩
  · have hfree : "[]" ∉ k :: r := by
      simp only [List.mem_cons, not_or]
      exact ⟨fun h => hk h.symm, hr⟩
    rw [applyFieldFunc_plain e _ ff hfree]
    have := NestedFieldNoCopy_absent e [] k r e hwalk habsent
    simp only [List.nil_append] at this
    simp [applyPlainFieldFunc, NestedString, this]
  · subst hr
    have hfree : "[]" ∉ k :: r1 := by
      simp only [List.mem_cons, not_or]
      exact ⟨fun h => hk h.symm, hr1⟩
    have hpath : k :: (r1 ++ "[]" :: r2) = (k :: r1) ++ "[]" :: r2 := by simp
    have := NestedFieldNoCopy_absent e [] k r1 e hwalk habsent
    simp only [List.nil_append] at this
    rw [hpath]
    cases r2 with
    | nil =>
      rw [applyFieldFunc_slice e _ ff hfree]
      simp [applySliceFieldFunc, NestedStringSlice, this]
    | cons x xs =>
      rw [applyFieldFunc_nested e _ (x :: xs) ff hfree (by simp)]
      simp [nestedBody, NestedSlice, this]

/-- C19: writing back what was read is the identity. If `ff` returns
`(v, true, nil)` on every string `v`, then for every document and path the
document after `applyFieldFunc` is the document before the call (also when the
call does not succeed). And for a nested path `pre ++ "[]" :: k :: r` over a
list of maps that all lack the key `k`, the call succeeds and leaves the
document unchanged for any mutation `g`, although the list is written
back. -/
theorem applyFieldFunc_write_same (obj : Obj) (path : List String) (ff : fieldFunc)
    (hff : ∀ v, ff v = (v, true, none)) :
    (applyFieldFunc obj path ff).obj = obj ∧
    (∀ (g : fieldFunc) (pre : List String) (k : String) (r : List String) (elems : List Obj),
      path = pre ++ "[]" :: k :: r → "[]" ∉ pre → k ≠ "[]" →
      NestedSlice obj pre = (elems.map Value.map, true, none) →
      (∀ el ∈ elems, mapGet el k = none) →
      applyFieldFunc obj path g = ⟨obj, .returned none⟩) := by
  refine ⟨applyFieldFunc_write_same_aux ff hff path.length path (le_refl _) obj, ?_⟩
  intro g pre k r elems hpath hpre hk hread hlack
  subst hpath
  have hel : ∀ el ∈ elems, applyFieldFunc el (k :: r) g = ⟨el, .returned none⟩ :=
    fun el h => applyFieldFunc_lacks_key el k r g hk (hlack el h)
  rw [applyFieldFunc_nested obj pre (k :: r) g hpre (by simp)]
  obtain ⟨hexit, hrep⟩ := nestedBody_ok obj pre (k :: r) g elems hread
    (fun el h => by rw [hel el h])
  have hsame : elems.map (fun e => Value.map (applyFieldFunc e (k :: r) g).obj)
      = elems.map Value.map := by
    apply List.map_congr_left
    intro el h
    rw [hel el h]
  rw [hsame] at hrep
  obtain ⟨hfield, _⟩ := NestedSlice_found obj pre _ none hread
  have hobj := hrep.same pre 0 none hfield
  rcases hout : nestedBody obj pre (k :: r) g with ⟨o, ex⟩
  rw [hout] at hexit hobj
  simp only at hexit hobj
  rw [hexit, hobj]

/-- Witness of C19 on the container scenario with the function that applies
every string to itself. -/
theorem applyFieldFunc_write_same_witness :
    (applyFieldFunc scenarioDoc ["spec", "containers", "[]", "image"]
        (fun v => (v, true, none))).obj = scenarioDoc :=
  (applyFieldFunc_write_same scenarioDoc ["spec", "containers", "[]", "image"]
    (fun v => (v, true, none)) (fun _ => rfl)).1

/-- The second half of C19, evaluated: two sub-documents that both lack `b`
are written back as they are. -/
theorem scenario_all_lack_evaluated :
    applyFieldFunc [("a", .slice [.map [("x", .str "1")], .map []])] ["a", "[]", "b"]
        (fun s => (s ++ "!", true, none)) =
      ⟨[("a", .slice [.map [("x", .str "1")], .map []])], .returned none⟩ := by
  rw [show (["a", "[]", "b"] : List String) = ["a"] ++ "[]" :: ["b"] from rfl,
    applyFieldFunc_nested _ _ _ _ (by decide) (by simp)]
  simp [nestedBody, NestedSlice, NestedFieldNoCopy, nestedFieldLoop, mapGet, nestedLoop,
    applyFieldFunc_plain _ ["b"] _ (by decide), applyPlainFieldFunc, NestedString,
    SetNestedField, SetNestedSlice, setNestedFieldNoCopy, setNestedLoop, mapSet]

/-! ## Termination and depth of the recursion -/

theorem nestedLoopDepth_some (f : Obj → Outcome) :
    ∀ (xs updated : List Value),
      nestedLoopDepth (fun m => some (f m)) xs updated = some (nestedLoop f xs updated) := by
  intro xs
  induction xs with
  | nil => intro updated; simp [nestedLoopDepth, nestedLoop]
  | cons x rest ih =>
    intro updated
    cases x with
    | map m =>
      rcases hrec : f m with ⟨o, ex⟩
      cases ex with
      | panicked => simp [nestedLoopDepth, nestedLoop, hrec]
      | returned err =>
        cases err with
        | some e => simp [nestedLoopDepth, nestedLoop, hrec]
        | none => simp [nestedLoopDepth, nestedLoop, hrec, ih]
    | _ => simp [nestedLoopDepth, nestedLoop]

/-- The recursive call of `processNestedSlice` gets the segments after the
first marker. -/
theorem drop_after_marker (p s : List String) (h : "[]" ∉ p) :
    (p ++ "[]" :: s).drop ((slicesIndex (p ++ "[]" :: s) "[]").toNat + 1) = s := by
  rw [slicesIndex_append p s "[]" h]
  simp

theorem take_before_marker (p s : List String) (h : "[]" ∉ p) :
    (p ++ "[]" :: s).take (slicesIndex (p ++ "[]" :: s) "[]").toNat = p := by
  rw [slicesIndex_append p s "[]" h]
  simp

/-- A depth budget of one more than the number of markers is enough. -/
theorem applyFieldFuncDepth_enough (ff : fieldFunc) :
    ∀ (depth : Nat) (path : List String), path.count "[]" + 1 ≤ depth →
      ∀ obj, applyFieldFuncDepth depth obj path ff = some (applyFieldFunc obj path ff) := by
  intro depth
  induction depth with
  | zero => intro path h; omega
  | succ depth ih =>
    intro path hdepth obj
    rcases path_cases path "[]" with hfree | ⟨p, r, hsplit, hp⟩
    · rw [applyFieldFunc_plain obj path ff hfree]
      simp [applyFieldFuncDepth, slicesIndex_not_mem path "[]" hfree]
    · subst hsplit
      have hi := slicesIndex_append p r "[]" hp
      cases r with
      | nil =>
        rw [applyFieldFunc_slice obj p ff hp]
        simp [applyFieldFuncDepth, hi]
      | cons x xs =>
        rw [applyFieldFunc_nested obj p (x :: xs) ff hp (by simp)]
        have hcount : (x :: xs).count "[]" + 1 ≤ depth := by
          have hc : (p ++ "[]" :: x :: xs).count "[]" = (x :: xs).count "[]" + 1 := by
            rw [List.count_append, List.count_eq_zero_of_not_mem hp, List.count_cons_self]
            omega
          omega
        have hrec : (fun nestedObj => applyFieldFuncDepth depth nestedObj (x :: xs) ff) =
            (fun nestedObj => some (applyFieldFunc nestedObj (x :: xs) ff)) := by
          funext m
          exact ih (x :: xs) hcount m
        have hne : ¬ ((p.length : Int) = ((p ++ "[]" :: x :: xs).length : Int) - 1) := by
          simp only [List.length_append, List.length_cons]
          push_cast
          omega
        have h1 : ((p.length : Int) ≠ -1) := by omega
        have htake := take_before_marker p (x :: xs) hp
        have hdrop := drop_after_marker p (x :: xs) hp
        rw [applyFieldFuncDepth]
        rw [htake, hdrop, hrec, hi]
        simp only [h1, hne, ne_eq, not_false_eq_true, if_true, if_false]
        rcases hr : NestedSlice obj p with ⟨nestedSlice, found, err⟩
        simp only [nestedBody, hr, nestedLoopDepth_some]
        cases hcond : (!found || err.isSome) with
        | true => simp
        | false =>
          simp only [Bool.false_eq_true, if_false]
          cases nestedLoop (fun nestedObj => applyFieldFunc nestedObj (x :: xs) ff)
            nestedSlice [] <;> rfl

/-- C20: termination. The call that `processNestedSlice` makes on an element
passes the segments after the first marker, a path strictly shorter than the
caller's; `applyFieldFunc` is a total function, and its recursion is no deeper
than the number of `"[]"` segments plus one: with that depth budget (or more)
the budgeted function returns, and returns what `applyFieldFunc` returns. -/
theorem applyFieldFunc_terminates (obj : Obj) (path : List String) (ff : fieldFunc) :
    (∀ p s, path = p ++ "[]" :: s → "[]" ∉ p →
      path.drop ((slicesIndex path "[]").toNat + 1) = s ∧ s.length < path.length) ∧
    (∀ depth, path.count "[]" + 1 ≤ depth →
      applyFieldFuncDepth depth obj path ff = some (applyFieldFunc obj path ff)) := by
  refine ⟨?_, fun depth h => applyFieldFuncDepth_enough ff depth path h obj⟩
  intro p s hpath hp
  subst hpath
  refine ⟨drop_after_marker p s hp, ?_⟩
  simp only [List.length_append, List.length_cons]
  omega

/-- Witness of C20 on the container scenario: one marker, depth two. -/
theorem applyFieldFunc_terminates_witness :
    (["spec", "containers", "[]", "image"].drop
        ((slicesIndex ["spec", "containers", "[]", "image"] "[]").toNat + 1) = ["image"] ∧
      ["image"].length < ["spec", "containers", "[]", "image"].length) ∧
    applyFieldFuncDepth 2 scenarioDoc ["spec", "containers", "[]", "image"] scenarioFunc =
      some (applyFieldFunc scenarioDoc ["spec", "containers", "[]", "image"] scenarioFunc) :=
  ⟨(applyFieldFunc_terminates scenarioDoc ["spec", "containers", "[]", "image"] scenarioFunc).1
      ["spec", "containers"] ["image"] rfl (by decide),
    (applyFieldFunc_terminates scenarioDoc ["spec", "containers", "[]", "image"] scenarioFunc).2
      2 (by decide)⟩

/-- The depth bound of C20 is reached: on the container scenario a budget of
one is not enough, a budget of two gives the result. -/
theorem scenario_depth_evaluated :
    applyFieldFuncDepth 1 scenarioDoc ["spec", "containers", "[]", "image"] scenarioFunc = none ∧
    (applyFieldFuncDepth 2 scenarioDoc ["spec", "containers", "[]", "image"] scenarioFunc).isSome
      = true := by
  constructor <;> rfl
